import Mathlib

/-!
Verification of the gradient-checking core (`utils/gradient_check.py` and
`src/utils/gradient_checker.py`).

Conventions of the shallow embedding:
* numeric array entries are modelled by `ℚ` (exact arithmetic for the parts of
  the code whose claims are exact); the norm-based scorer lives in `ℝ`;
* a numpy array is a shape together with its row-major data;
* Python dictionaries (insertion ordered) are modelled by association lists
  with in-place update, or by functions `κ → Option NDArr` when only lookup
  and `copy`/item-assignment are used;
* exceptions (`KeyError`, `ValueError` from `reshape`, `IndexError`,
  `AssertionError`) are modelled with `Except`;
* an IEEE division whose divisor is zero does not produce a real number
  (NaN or ±inf); the scorer therefore returns `Option ℝ`, `none` standing
  for a non-numeric float result;
* the collaborating model (layers, forward/backward propagation, cost) is
  external to this core and is abstracted by function parameters subject to
  the collaborator contract of the specification.
-/

set_option maxHeartbeats 1000000
set_option linter.unusedSectionVars false

/-! ## Data model -/

/-- A numpy ndarray: its shape and its row-major (C-order) data. -/
structure NDArr where
  shape : List ℕ
  data : List ℚ
deriving DecidableEq, Repr

/-- Total number of elements (`arr.size` in numpy). -/
def NDArr.size (a : NDArr) : ℕ := a.shape.prod

/-- Well-formedness every numpy array satisfies by construction:
the data length is the product of the shape. -/
def NDArr.wfb (a : NDArr) : Bool := a.data.length == a.size

/-- The array is 2-dimensional. -/
def NDArr.is2Db (a : NDArr) : Bool := a.shape.length == 2

/-- `arr.shape[0] * arr.shape[1]` as evaluated by `unroll_params`
(missing dimensions modelled as a default of 0; the embedding raises the
`IndexError` separately before this value is ever used). -/
def NDArr.dims2 (a : NDArr) : ℕ := a.shape.headD 0 * a.shape.tail.headD 0

/-- Python slice `l[a:b]` (for `0 ≤ a ≤ b`): clamps at the end of the list. -/
def pySlice (l : List ℚ) (a b : ℕ) : List ℚ := (l.drop a).take (b - a)

/-- `np.reshape(data, shape)` on flat data: succeeds exactly when the element
count matches, otherwise raises `ValueError`. -/
def npReshape (data : List ℚ) (shape : List ℕ) : Option NDArr :=
  if data.length = shape.prod then some ⟨shape, data⟩ else none

/-- `isOk` of an `Except` value. -/
def exceptOk {ε α : Type} : Except ε α → Bool
  | .ok _ => true
  | .error _ => false

/-! ## Dictionary-based roller (`utils/gradient_check.py`) -/

section DictRoller

variable {κ : Type} [DecidableEq κ]

/-- Python `dict` item assignment on an insertion-ordered association list:
an existing key keeps its slot and gets the new value, a new key is appended. -/
def dictInsert (d : List (κ × ℕ × ℕ)) (k : κ) (v : ℕ × ℕ) : List (κ × ℕ × ℕ) :=
  if d.any (fun p => decide (p.1 = k)) then
    d.map (fun p => if p.1 = k then (k, v) else p)
  else d ++ [(k, v)]

/-- Error raised by `params_to_vector`: a listed key absent from the
dictionary (Python `KeyError`). -/
inductive RollErr
  | keyError
deriving DecidableEq, Repr

/-- The loop of `params_to_vector`: for each key, flatten `params[key]` with
`np.reshape(matrix, (-1, 1))` (row-major), append it to `theta` and record
`positions[key] = (from_i, to_i)`. -/
def rollLoop (params : κ → Option NDArr) :
    List κ → List ℚ → List (κ × ℕ × ℕ) →
    Except RollErr (List ℚ × List (κ × ℕ × ℕ))
  | [], theta, pos => .ok (theta, pos)
  | k :: keys, theta, pos =>
    match params k with
    | none => .error .keyError
    | some a =>
      let theta' := theta ++ a.data
      rollLoop params keys theta' (dictInsert pos k (theta.length, theta'.length))

/-- `params_to_vector(params, keys)` of `utils/gradient_check.py`: rolls the
listed parameters into one flat vector and returns it with the position
index; the returned cache of the source is the pair `(params, positions)`. -/
def params_to_vector (params : κ → Option NDArr) (keys : List κ) :
    Except RollErr (List ℚ × List (κ × ℕ × ℕ)) :=
  rollLoop params keys [] []

/-- Errors raised by `vector_to_params`: a position key absent from the
template dictionary (`KeyError`), or a `reshape` of a slice whose length does
not match the recorded shape (`ValueError`). -/
inductive UnrollErr
  | keyError
  | reshapeError
deriving DecidableEq, Repr

/-- The loop of `vector_to_params`: for each recorded `(key, (from_i, to_i))`,
set `params[key] = theta[from_i:to_i].reshape(_params[key].shape)`. -/
def unrollLoop (orig : κ → Option NDArr) (theta : List ℚ) :
    List (κ × ℕ × ℕ) → (κ → Option NDArr) →
    Except UnrollErr (κ → Option NDArr)
  | [], acc => .ok acc
  | (k, fi, ti) :: rest, acc =>
    match orig k with
    | none => .error .keyError
    | some a =>
      match npReshape (pySlice theta fi ti) a.shape with
      | none => .error .reshapeError
      | some b => unrollLoop orig theta rest (Function.update acc k (some b))

/-- `vector_to_params(theta, cache)` of `utils/gradient_check.py`: starts from
a copy of the original dictionary and overwrites every recorded key with the
reshaped slice of `theta`. -/
def vector_to_params (theta : List ℚ)
    (cache : (κ → Option NDArr) × List (κ × ℕ × ℕ)) :
    Except UnrollErr (κ → Option NDArr) :=
  unrollLoop cache.1 theta cache.2 cache.1

/-- Invariant satisfied by every recorded position entry: the key is present,
the interval has the length of the key's (well-formed) array and slices out
exactly its row-major data. -/
def goodPos (params : κ → Option NDArr) (θ : List ℚ) (e : κ × ℕ × ℕ) : Prop :=
  ∃ a, params e.1 = some a ∧ a.wfb = true ∧ e.2.2 = e.2.1 + a.data.length ∧
    e.2.2 ≤ θ.length ∧ pySlice θ e.2.1 e.2.2 = a.data

/-- The recorded intervals tile `[lo, hi)` contiguously in order. -/
def contig : ℕ → ℕ → List (κ × ℕ × ℕ) → Prop
  | lo, hi, [] => lo = hi
  | lo, hi, e :: rest => e.2.1 = lo ∧ contig e.2.2 hi rest

/-- A key is present with a well-formed array. -/
def keyOkB (params : κ → Option NDArr) (k : κ) : Bool :=
  match params k with
  | some a => a.wfb
  | none => false

/-- A key is present with a well-formed 2-D array. -/
def keyOk2DB (params : κ → Option NDArr) (k : κ) : Bool :=
  match params k with
  | some a => a.wfb && a.is2Db
  | none => false

end DictRoller

/-! ## Layer-based roller (`src/utils/gradient_checker.py`) -/

/-- The class of a layer, as far as the `isinstance` checks of
`GradientChecker.compute_error` are concerned. -/
inductive LayerKind
  | dropout
  | batchnorm
  | other
deriving DecidableEq, Repr

/-- A layer object: its class together with its `params` and `grads`
attributes (each an insertion-ordered dictionary of named arrays, or None). -/
structure Layer where
  kind : LayerKind
  params : Option (List (String × NDArr))
  grads : Option (List (String × NDArr))
deriving DecidableEq, Repr

/-- The two collection attributes `getattr(layer, param_type)` can fetch. -/
inductive PType
  | params
  | grads
deriving DecidableEq, Repr

/-- `getattr(layer, param_type)`. -/
def Layer.get (l : Layer) : PType → Option (List (String × NDArr))
  | .params => l.params
  | .grads => l.grads

/-- Writing the collection attribute back into the layer. -/
def Layer.set (l : Layer) : PType → Option (List (String × NDArr)) → Layer
  | .params, c => { l with params := c }
  | .grads, c => { l with grads := c }

/-- `roll_params(layers, param_type)` of `src/utils/gradient_checker.py`:
append the row-major data (`vector.flatten()`) of every array of every
non-None collection, in layer order, to one flat vector. -/
def roll_params (layers : List Layer) (pt : PType) : List ℚ :=
  layers.foldl (fun theta l =>
    match l.get pt with
    | none => theta
    | some ps => ps.foldl (fun th p => th ++ p.2.data) theta) []

/-- The flat data contributed by one collection attribute. -/
def rollColl : Option (List (String × NDArr)) → List ℚ
  | none => []
  | some ps => ps.flatMap (fun p => p.2.data)

/-- Errors raised by `unroll_params`: `vector.shape[1]` on an array of fewer
than two dimensions (`IndexError`), or a `reshape` length mismatch
(`ValueError`). -/
inductive LayerErr
  | indexError
  | reshapeError
deriving DecidableEq, Repr

/-- Inner loop of `unroll_params` over one collection: for each key,
`j = i + vector.shape[0] * vector.shape[1]`,
`params[k] = theta[i:j].reshape(vector.shape)`, `i = j`. -/
def unrollColl (theta : List ℚ) :
    List (String × NDArr) → ℕ → Except LayerErr (List (String × NDArr) × ℕ)
  | [], i => .ok ([], i)
  | (k, a) :: rest, i =>
    match a.shape with
    | r :: c :: _ =>
      let j := i + r * c
      match npReshape (pySlice theta i j) a.shape with
      | none => .error .reshapeError
      | some b =>
        match unrollColl theta rest j with
        | .error e => .error e
        | .ok (rest', i') => .ok ((k, b) :: rest', i')
    | _ => .error .indexError

/-- Outer loop of `unroll_params` over the layers, threading the running
index `i`; a layer whose collection is None is skipped. -/
def unrollLayers (theta : List ℚ) (pt : PType) :
    List Layer → ℕ → Except LayerErr (List Layer × ℕ)
  | [], i => .ok ([], i)
  | l :: ls, i =>
    match l.get pt with
    | none =>
      match unrollLayers theta pt ls i with
      | .error e => .error e
      | .ok (ls', i') => .ok (l :: ls', i')
    | some ps =>
      match unrollColl theta ps i with
      | .error e => .error e
      | .ok (ps', i') =>
        match unrollLayers theta pt ls i' with
        | .error e => .error e
        | .ok (ls', i'') => .ok (l.set pt (some ps') :: ls', i'')

/-- `unroll_params(theta, layers, param_type)` of
`src/utils/gradient_checker.py` (the in-place mutation of the layers is
modelled by returning the updated layer list). -/
def unroll_params (theta : List ℚ) (layers : List Layer) (pt : PType) :
    Except LayerErr (List Layer) :=
  match unrollLayers theta pt layers 0 with
  | .error e => .error e
  | .ok (ls', _) => .ok ls'

/-! ### Shape and well-formedness bookkeeping for the layer roller -/

/-- Keys and shapes of one collection. -/
def collKS (ps : List (String × NDArr)) : List (String × List ℕ) :=
  ps.map (fun p => (p.1, p.2.shape))

/-- Keys and shapes of an optional collection. -/
def collShapes : Option (List (String × NDArr)) → Option (List (String × List ℕ))
  | none => none
  | some ps => some (collKS ps)

/-- Keys and shapes of the collection `pt` of a layer. -/
def Layer.ptShape (l : Layer) (pt : PType) : Option (List (String × List ℕ)) :=
  collShapes (l.get pt)

/-- Keys and shapes of the collection `pt` across the layer list. -/
def ptShapes (ls : List Layer) (pt : PType) : List (Option (List (String × List ℕ))) :=
  ls.map (fun l => l.ptShape pt)

/-- Everything about a layer list except the values stored in the `params`
collections: kinds, full `grads` collections, and the key/shape skeleton of
`params`. Two lists with equal `modData` differ at most in parameter values. -/
def modData (ls : List Layer) :
    List (LayerKind × Option (List (String × NDArr)) × Option (List (String × List ℕ))) :=
  ls.map (fun l => (l.kind, l.grads, l.ptShape .params))

/-- Kind and key/shape skeleton of both collections of every layer. -/
def layersSkel (ls : List Layer) :
    List (LayerKind × Option (List (String × List ℕ)) × Option (List (String × List ℕ))) :=
  ls.map (fun l => (l.kind, l.ptShape .params, l.ptShape .grads))

/-- Every array of the collection is well-formed and 2-D. -/
def collOkB : Option (List (String × NDArr)) → Bool
  | none => true
  | some ps => ps.all (fun p => p.2.wfb && p.2.is2Db)

/-- Every array of the collection is 2-D. -/
def collIs2DB : Option (List (String × NDArr)) → Bool
  | none => true
  | some ps => ps.all (fun p => p.2.is2Db)

/-- Both collections of every layer contain only well-formed 2-D arrays. -/
def layersOk (ls : List Layer) : Bool :=
  ls.all (fun l => collOkB l.params && collOkB l.grads)

/-- `shape[0] * shape[1]` summed over one optional collection. -/
def collSize2 : Option (List (String × NDArr)) → ℕ
  | none => 0
  | some ps => (ps.map (fun p => p.2.dims2)).sum

/-- `shape[0] * shape[1]` summed over the collection `pt` of every layer:
the number of scalars `unroll_params` consumes. -/
def ptSize (ls : List Layer) (pt : PType) : ℕ :=
  (ls.map (fun l => collSize2 (l.get pt))).sum

/-! ## Gradient estimator of `src/utils/gradient_checker.py` -/

/-- Errors of `GradientChecker.compute_error`: a failed `assert`
(the specification's PreconditionViolation), or an error propagated from the
roller. -/
inductive CheckErr
  | assertionError
  | rollError (e : LayerErr)
deriving DecidableEq, Repr

section Estimator

variable {Output : Type}

/-- One half-step of the central-difference loop: install the perturbed
vector into the layers, run `propagate_forward(X, predict=True)` and
`compute_cost` on its output.  `fwdPredict` and `computeCost` are the
collaborating model's methods with the fixed arguments `X`, `Y` absorbed;
`fwdPredict` also returns the (possibly mutated) layers. -/
def gcStep (fwdPredict : List Layer → Output × List Layer)
    (computeCost : Output → ℚ) (v : List ℚ) (ls : List Layer) :
    Except LayerErr (ℚ × List Layer) :=
  match unroll_params v ls .params with
  | .error e => .error e
  | .ok ls' => .ok (computeCost (fwdPredict ls').1, (fwdPredict ls').2)

/-- The per-coordinate loop of `compute_error`: for each `i`,
`theta_plus = np.copy(param_theta); theta_plus[i] += eps` (and the minus
twin), two half-steps, and
`grad_approx[i] = (cost_plus - cost_minus) / (2 * eps)`. -/
def gcLoop (fwdPredict : List Layer → Output × List Layer)
    (computeCost : Output → ℚ) (paramTheta : List ℚ) (eps : ℚ) :
    List ℕ → List ℚ → List Layer → Except LayerErr (List ℚ × List Layer)
  | [], gradApprox, ls => .ok (gradApprox, ls)
  | i :: rest, gradApprox, ls =>
    match gcStep fwdPredict computeCost
        (paramTheta.set i (paramTheta.getD i 0 + eps)) ls with
    | .error e => .error e
    | .ok (costPlus, ls1) =>
      match gcStep fwdPredict computeCost
          (paramTheta.set i (paramTheta.getD i 0 - eps)) ls1 with
      | .error e => .error e
      | .ok (costMinus, ls2) =>
        gcLoop fwdPredict computeCost paramTheta eps rest
          (gradApprox.set i ((costPlus - costMinus) / (2 * eps))) ls2

/-- The layers after `propagate_forward(X)` and `propagate_backward(output, Y)`. -/
def postBackward (fwdTrain : List Layer → Output × List Layer)
    (bwd : Output → List Layer → List Layer) (ls : List Layer) : List Layer :=
  bwd (fwdTrain ls).1 (fwdTrain ls).2

/-- `GradientChecker.compute_error(X, Y)` up to (but not including) the final
`calculate_diff`: returns `(grad_theta, grad_approx, final layers)`.
The preconditions are the `assert`s of the source; `fwdTrain` is
`propagate_forward(X)`, `bwd` is `propagate_backward(output, Y)`,
`fwdPredict` is `propagate_forward(X, predict=True)` and `computeCost` is
`compute_cost(output, Y)`, each with `X`, `Y` absorbed and layer mutation
made explicit. -/
def compute_error_core (fwdTrain : List Layer → Output × List Layer)
    (bwd : Output → List Layer → List Layer)
    (fwdPredict : List Layer → Output × List Layer)
    (computeCost : Output → ℚ) (regularizer : Option Unit)
    (layers : List Layer) (eps : ℚ) :
    Except CheckErr (List ℚ × List ℚ × List Layer) :=
  if regularizer.isSome then .error .assertionError
  else if layers.any (fun l => l.kind == LayerKind.dropout
      || l.kind == LayerKind.batchnorm) then .error .assertionError
  else
    let params := roll_params layers .params
    let grads := roll_params layers .grads
    let ls2 := postBackward fwdTrain bwd layers
    let paramTheta := roll_params ls2 .params
    let gradTheta := roll_params ls2 .grads
    let n := paramTheta.length
    match gcLoop fwdPredict computeCost paramTheta eps
        (List.range n) (List.replicate n 0) ls2 with
    | .error e => .error (.rollError e)
    | .ok (gradApprox, ls3) =>
      match unroll_params params ls3 .params with
      | .error e => .error (.rollError e)
      | .ok ls4 =>
        match unroll_params grads ls4 .grads with
        | .error e => .error (.rollError e)
        | .ok ls5 => .ok (gradTheta, gradApprox, ls5)

/-- Reference cost of a perturbed flat vector, installed into the fixed
post-backward state `base`: what coordinate `i`'s half-step must evaluate if
perturbations do not accumulate (out-of-range default 0, never used under
the theorems' hypotheses). -/
def refCostD (fwdPredict : List Layer → Output × List Layer)
    (computeCost : Output → ℚ) (base : List Layer) (v : List ℚ) : ℚ :=
  match unroll_params v base .params with
  | .ok ls => computeCost (fwdPredict ls).1
  | .error _ => 0

end Estimator

/-! ## Gradient estimator of `utils/gradient_check.py` -/

/-- The regularizer attribute of the dictionary-based model, as far as
`isinstance(model.regularizer, regularizers.Dropout)` is concerned. -/
inductive DictReg
  | dropoutReg
  | otherReg
  | noneReg
deriving DecidableEq, Repr

/-- Errors of `GradientCheck.run`: a failed `assert`, or an error propagated
from the roller. -/
inductive RunErr
  | assertionError
  | rollError (e : RollErr)
  | unrollError (e : UnrollErr)
deriving DecidableEq, Repr

section RunEstimator

variable {κ : Type} [DecidableEq κ]

/-- The per-coordinate loop of `GradientCheck.run`: perturb a fresh copy of
`param_theta` at coordinate `i`, unroll it, evaluate the model.  `J` is the
composition of `propagate_forward(X, ·)` and `compute_cost(·, Y, ·)` (both
read the perturbed parameter dictionary; `X`, `Y` are fixed). -/
def runLoop (J : (κ → Option NDArr) → ℚ)
    (cache : (κ → Option NDArr) × List (κ × ℕ × ℕ))
    (θ : List ℚ) (eps : ℚ) :
    List ℕ → List ℚ → Except UnrollErr (List ℚ)
  | [], gradapprox => .ok gradapprox
  | i :: rest, gradapprox =>
    match vector_to_params (θ.set i (θ.getD i 0 + eps)) cache with
    | .error e => .error e
    | .ok thetaPlusParams =>
      match vector_to_params (θ.set i (θ.getD i 0 - eps)) cache with
      | .error e => .error e
      | .ok thetaMinusParams =>
        runLoop J cache θ eps rest
          (gradapprox.set i ((J thetaPlusParams - J thetaMinusParams) / (2 * eps)))

/-- `GradientCheck.run(X, Y)` up to (but not including) the final
`calculate_diff` and classification: the dropout assert, both rolls and the
central-difference loop, returning `(grad_theta, gradapprox)`.  `params` and
`grads` are the dictionaries produced by the model's single analytic
iteration (`initialize_params` / `propagate_forward` / `propagate_backward`,
which are collaborator calls with no estimator state of their own). -/
def run_core (reg : DictReg) (params grads : κ → Option NDArr)
    (paramKeys gradKeys : List κ) (J : (κ → Option NDArr) → ℚ) (eps : ℚ) :
    Except RunErr (List ℚ × List ℚ) :=
  if reg = DictReg.dropoutReg then .error .assertionError
  else
    match params_to_vector params paramKeys with
    | .error e => .error (.rollError e)
    | .ok (paramTheta, positions) =>
      match params_to_vector grads gradKeys with
      | .error e => .error (.rollError e)
      | .ok (gradTheta, _) =>
        let n := paramTheta.length
        match runLoop J (params, positions) paramTheta eps
            (List.range n) (List.replicate n 0) with
        | .error e => .error (.unrollError e)
        | .ok gradApprox => .ok (gradTheta, gradApprox)

/-- Reference cost for the dictionary estimator: the model evaluated on the
unflattened perturbed vector (default 0 on a roller error, never used under
the theorems' hypotheses). -/
def refCostDictD (J : (κ → Option NDArr) → ℚ)
    (cache : (κ → Option NDArr) × List (κ × ℕ × ℕ)) (v : List ℚ) : ℚ :=
  match vector_to_params v cache with
  | .ok p => J p
  | .error _ => 0

end RunEstimator

/-! ## Discrepancy scorer and classification -/

/-- Euclidean (= Frobenius on a flattened column) norm. -/
noncomputable def euclidNorm {n : ℕ} (v : Fin n → ℝ) : ℝ :=
  Real.sqrt (∑ i, v i ^ 2)

open Classical in
/-- `calculate_diff(grad_theta, grad_approx)` of
`src/utils/gradient_checker.py`:
`norm(A - B) / (norm(A) + norm(B))`.  A zero denominator makes the float
division non-numeric (0/0 = NaN), modelled as `none`. -/
noncomputable def calculate_diff {n : ℕ} (A B : Fin n → ℝ) : Option ℝ :=
  let numerator := euclidNorm (A - B)
  let denominator := euclidNorm A + euclidNorm B
  if denominator = 0 then none else some (numerator / denominator)

open Classical in
/-- `calculate_diff(A, B)` of `utils/gradient_check.py`: the same formula
with each norm wrapped in one more `np.linalg.norm`, which on a scalar is
the absolute value. -/
noncomputable def calculate_diff_v1 {n : ℕ} (A B : Fin n → ℝ) : Option ℝ :=
  let numerator := |euclidNorm (A - B)|
  let denominator := |euclidNorm A| + |euclidNorm B|
  if denominator = 0 then none else some (numerator / denominator)

/-- Modelled from the spec: `score(A, B) = ||A - B|| / (||A|| + ||B||)` with
the Euclidean norm — the refinement target the code's scorer is compared
against (stated in real division, which is total). -/
noncomputable def score_spec {n : ℕ} (A B : Fin n → ℝ) : ℝ :=
  euclidNorm (A - B) / (euclidNorm A + euclidNorm B)

/-- The printed verdict of `GradientCheck.run`. -/
inductive Verdict
  | passed
  | failed
deriving DecidableEq, Repr

open Classical in
/-- The classification of `GradientCheck.run`:
`if diff > 2e-7: "Failed" else: "Passed"`. -/
noncomputable def classifyDiff (diff : ℝ) : Verdict :=
  if diff > 2 / 10 ^ 7 then .failed else .passed

/-! ## Concrete instances used by the witnesses -/

/-- A concrete parameter dictionary: `W0` a 2×1 matrix, `b0` a 1×1 matrix. -/
def exampleParams : String → Option NDArr := fun k =>
  if k = "W0" then some ⟨[2, 1], [3, 4]⟩
  else if k = "b0" then some ⟨[1, 1], [5]⟩ else none

/-- A concrete gradient dictionary matching `exampleParams`. -/
def exampleGrads : String → Option NDArr := fun k =>
  if k = "dW0" then some ⟨[2, 1], [1, 2]⟩
  else if k = "db0" then some ⟨[1, 1], [7]⟩ else none

/-- A dictionary whose only entry is a 1-D (not 2-D) array. -/
def example1D : String → Option NDArr := fun k =>
  if k = "W0" then some ⟨[3], [1, 2, 3]⟩ else none

/-- A dictionary whose only entry is a single 1×1 matrix. -/
def exampleScalar : String → Option NDArr := fun k =>
  if k = "W0" then some ⟨[1, 1], [5]⟩ else none

/-- A concrete ordinary layer with one 1×2 weight and its gradient. -/
def exampleLayer : Layer :=
  ⟨LayerKind.other, some [("W", ⟨[1, 2], [1, 2]⟩)], some [("dW", ⟨[1, 2], [5, 6]⟩)]⟩

/-- A layer whose collections are both None (e.g. an activation layer). -/
def noneLayer : Layer := ⟨LayerKind.other, none, none⟩

/-- A dropout layer (collections None, as in the source). -/
def dropoutLayer : Layer := ⟨LayerKind.dropout, none, none⟩

/-- The layer list used by the estimator witnesses. -/
def exampleLayers : List Layer := [noneLayer, exampleLayer]

/-- Trivial collaborator model: forward returns the layers unchanged. -/
def idFwd : List Layer → Unit × List Layer := fun ls => ((), ls)

/-- Trivial collaborator model: backward mutates nothing. -/
def idBwd : Unit → List Layer → List Layer := fun _ ls => ls

/-- Trivial collaborator model: constant cost. -/
def zeroCost : Unit → ℚ := fun _ => 0

/-- Trivial collaborator model: constant cost on a dictionary. -/
def zeroJ : (String → Option NDArr) → ℚ := fun _ => 0

/-- The all-zero vector of length 1. -/
noncomputable def zeroVec : Fin 1 → ℝ := fun _ => 0

/-- The all-one vector of length 1. -/
noncomputable def oneVec : Fin 1 → ℝ := fun _ => 1

/-! # Theorems -/

/-! ## Lemmas about the dictionary roller -/

theorem pySlice_append (l ext : List ℚ) (a b : ℕ) (h : b ≤ l.length) :
    pySlice (l ++ ext) a b = pySlice l a b := by
  unfold pySlice
  rw [List.drop_append_eq_append_drop, List.take_append_eq_append_take]
  have h2 : (b - a) - (l.drop a).length = 0 := by
    simp only [List.length_drop]
    omega
  rw [h2, List.take_zero, List.append_nil]

theorem pySlice_at_append (l mid ext : List ℚ) :
    pySlice (l ++ (mid ++ ext)) l.length (l.length + mid.length) = mid := by
  unfold pySlice
  rw [List.drop_left, Nat.add_sub_cancel_left, List.take_append_eq_append_take]
  simp

theorem pySlice_at_append' (l mid : List ℚ) :
    pySlice (l ++ mid) l.length (l.length + mid.length) = mid := by
  have := pySlice_at_append l mid []
  simpa using this

section DictLemmas

variable {κ : Type} [DecidableEq κ]

theorem goodPos_append {params : κ → Option NDArr} {θ : List ℚ} {e}
    (ext : List ℚ) (h : goodPos params θ e) : goodPos params (θ ++ ext) e := by
  obtain ⟨a, h1, h2, h3, h4, h5⟩ := h
  refine ⟨a, h1, h2, h3, ?_, ?_⟩
  · simp only [List.length_append]; omega
  · rw [pySlice_append _ _ _ _ h4]; exact h5

theorem dictInsert_mem {d : List (κ × ℕ × ℕ)} {k : κ} {v : ℕ × ℕ}
    {e : κ × ℕ × ℕ} (h : e ∈ dictInsert d k v) : e ∈ d ∨ e = (k, v) := by
  unfold dictInsert at h
  by_cases hc : d.any (fun p => decide (p.1 = k)) = true
  · rw [if_pos hc] at h
    rcases List.mem_map.mp h with ⟨p, hp, hpe⟩
    by_cases hpk : p.1 = k
    · right; rw [if_pos hpk] at hpe; exact hpe.symm
    · left; rw [if_neg hpk] at hpe; exact hpe ▸ hp
  · rw [if_neg hc] at h
    rcases List.mem_append.mp h with h' | h'
    · exact Or.inl h'
    · exact Or.inr (List.mem_singleton.mp h')

theorem rollLoop_ok (params : κ → Option NDArr) (keys : List κ) :
    ∀ (θa : List ℚ) (posa : List (κ × ℕ × ℕ)),
    (∀ k ∈ keys, ∃ a, params k = some a ∧ a.wfb = true) →
    (∀ e ∈ posa, goodPos params θa e) →
    ∃ ext posf, rollLoop params keys θa posa = .ok (θa ++ ext, posf) ∧
      ∀ e ∈ posf, goodPos params (θa ++ ext) e := by
  induction keys with
  | nil =>
    intro θa posa _ hpos
    exact ⟨[], posa, by simp [rollLoop], by
      intro e he
      simpa using goodPos_append [] (hpos e he)⟩
  | cons k keys ih =>
    intro θa posa hkeys hpos
    obtain ⟨a, hak, hwf⟩ := hkeys k (List.mem_cons_self k keys)
    have hrest : ∀ k' ∈ keys, ∃ a, params k' = some a ∧ a.wfb = true :=
      fun k' hk' => hkeys k' (List.mem_cons_of_mem _ hk')
    have hpos' : ∀ e ∈ dictInsert posa k (θa.length, (θa ++ a.data).length),
        goodPos params (θa ++ a.data) e := by
      intro e he
      rcases dictInsert_mem he with he' | he'
      · exact goodPos_append _ (hpos e he')
      · subst he'
        refine ⟨a, hak, hwf, ?_, ?_, ?_⟩
        · simp
        · simp
        · have := pySlice_at_append' θa a.data
          simpa using this
    obtain ⟨ext', posf, heq, hgood⟩ := ih (θa ++ a.data)
      (dictInsert posa k (θa.length, (θa ++ a.data).length)) hrest hpos'
    refine ⟨a.data ++ ext', posf, ?_, ?_⟩
    · simp only [rollLoop, hak]
      rw [heq, List.append_assoc]
    · rw [← List.append_assoc]; exact hgood

theorem unrollLoop_id (params : κ → Option NDArr) (θ : List ℚ) :
    ∀ pos : List (κ × ℕ × ℕ), (∀ e ∈ pos, goodPos params θ e) →
    unrollLoop params θ pos params = .ok params := by
  intro pos
  induction pos with
  | nil => intro _; rfl
  | cons e rest ih =>
    intro hpos
    obtain ⟨a, h1, h2, h3, _, h5⟩ := hpos e (List.mem_cons_self e rest)
    obtain ⟨k, fi, ti⟩ := e
    simp only at h1 h3 h5
    have hlen : (pySlice θ fi ti).length = a.shape.prod := by
      rw [h5]
      exact Nat.eq_of_beq_eq_true (by simpa [NDArr.wfb, NDArr.size] using h2)
    have hre : npReshape (pySlice θ fi ti) a.shape = some a := by
      unfold npReshape
      rw [if_pos hlen, h5]
    simp only [unrollLoop, h1, hre]
    have hupd : Function.update params k (some a) = params := by
      rw [← h1]; exact Function.update_eq_self k params
    rw [hupd]
    exact ih (fun e' he' => hpos e' (List.mem_cons_of_mem _ he'))

/-- Master round-trip lemma for the dictionary roller: unflattening the
flattened vector, even with arbitrary extra elements appended, restores the
original dictionary exactly. -/
theorem dict_roundtrip_ext (params : κ → Option NDArr) (keys : List κ)
    (hkeys : ∀ k ∈ keys, ∃ a, params k = some a ∧ a.wfb = true) (ext : List ℚ) :
    ∃ θ pos, params_to_vector params keys = .ok (θ, pos) ∧
      vector_to_params (θ ++ ext) (params, pos) = .ok params := by
  obtain ⟨θ, pos, heq, hgood⟩ := rollLoop_ok params keys [] [] hkeys (by simp)
  refine ⟨θ, pos, by simpa [params_to_vector] using heq, ?_⟩
  unfold vector_to_params
  exact unrollLoop_id params (θ ++ ext) pos
    (fun e he => goodPos_append ext (hgood e (by simpa using he)))

end DictLemmas

section DictErrLemmas

variable {κ : Type} [DecidableEq κ]

theorem rollLoop_isOk (params : κ → Option NDArr) :
    ∀ (keys : List κ) (θa : List ℚ) (posa : List (κ × ℕ × ℕ)),
    exceptOk (rollLoop params keys θa posa) = true ↔ ∀ k ∈ keys, params k ≠ none := by
  intro keys
  induction keys with
  | nil => intro θa posa; simp [rollLoop, exceptOk]
  | cons k keys ih =>
    intro θa posa
    cases hk : params k with
    | none => simp [rollLoop, hk, exceptOk]
    | some a =>
      simp only [rollLoop, hk]
      rw [ih]
      constructor
      · intro h k' hk'
        rcases List.mem_cons.mp hk' with h' | h'
        · rw [h', hk]; exact (by simp)
        · exact h k' h'
      · intro h k' hk'
        exact h k' (List.mem_cons_of_mem _ hk')

/-- Flatten succeeds if and only if every listed key is present; in
particular no dimensionality condition is checked. -/
theorem params_to_vector_isOk (params : κ → Option NDArr) (keys : List κ) :
    exceptOk (params_to_vector params keys) = true ↔ ∀ k ∈ keys, params k ≠ none :=
  rollLoop_isOk params keys [] []

theorem dictInsert_fresh {d : List (κ × ℕ × ℕ)} {k : κ} {v : ℕ × ℕ}
    (h : ∀ e ∈ d, e.1 ≠ k) : dictInsert d k v = d ++ [(k, v)] := by
  have hneg : ¬ (d.any (fun p => decide (p.1 = k)) = true) := by
    simp only [List.any_eq_true, decide_eq_true_eq]
    push_neg
    exact h
  unfold dictInsert
  rw [if_neg hneg]

/-- With pairwise-distinct keys the recorded positions are appended in
order and tile the produced vector contiguously. -/
theorem rollLoop_contig (params : κ → Option NDArr) (keys : List κ) :
    ∀ (θa : List ℚ) (posa : List (κ × ℕ × ℕ)),
    keys.Nodup →
    (∀ k ∈ keys, params k ≠ none) →
    (∀ e ∈ posa, e.1 ∉ keys) →
    ∃ ext new, rollLoop params keys θa posa = .ok (θa ++ ext, posa ++ new) ∧
      contig θa.length (θa ++ ext).length new := by
  induction keys with
  | nil =>
    intro θa posa _ _ _
    exact ⟨[], [], by simp [rollLoop], by simp [contig]⟩
  | cons k keys ih =>
    intro θa posa hnd hpresent hfresh
    cases hk : params k with
    | none => exact absurd hk (hpresent k (List.mem_cons_self k keys))
    | some a =>
      have hnd' := (List.nodup_cons.mp hnd).2
      have hknotin := (List.nodup_cons.mp hnd).1
      have hins : dictInsert posa k (θa.length, (θa ++ a.data).length) =
          posa ++ [(k, (θa.length, (θa ++ a.data).length))] :=
        dictInsert_fresh (fun e he hek =>
          hfresh e he (hek ▸ List.mem_cons_self k keys))
      have hfresh' : ∀ e ∈ posa ++ [(k, (θa.length, (θa ++ a.data).length))],
          e.1 ∉ keys := by
        intro e he
        rcases List.mem_append.mp he with h' | h'
        · exact fun hm => hfresh e h' (List.mem_cons_of_mem _ hm)
        · rw [List.mem_singleton.mp h']
          exact hknotin
      obtain ⟨ext', new', heq, hcont⟩ := ih (θa ++ a.data)
        (posa ++ [(k, (θa.length, (θa ++ a.data).length))]) hnd'
        (fun k' hk' => hpresent k' (List.mem_cons_of_mem _ hk')) hfresh'
      refine ⟨a.data ++ ext', (k, (θa.length, (θa ++ a.data).length)) :: new', ?_, ?_⟩
      · simp only [rollLoop, hk, hins]
        rw [heq, List.append_assoc, List.append_assoc]
        simp
      · refine ⟨rfl, ?_⟩
        rw [← List.append_assoc]
        exact hcont

/-- A point strictly inside the tiled range lies inside some interval. -/
theorem contig_cover {x : ℕ} :
    ∀ (es : List (κ × ℕ × ℕ)) (lo hi : ℕ), contig lo hi es →
    lo ≤ x → x < hi → ∃ e ∈ es, e.2.1 ≤ x ∧ x < e.2.2 := by
  intro es
  induction es with
  | nil =>
    intro lo hi hc hlo hhi
    rw [hc] at hlo
    omega
  | cons e rest ih =>
    intro lo hi hc hlo hhi
    obtain ⟨he1, hrest⟩ := hc
    by_cases hx : x < e.2.2
    · exact ⟨e, List.mem_cons_self e rest, by omega, hx⟩
    · obtain ⟨e', he', h1, h2⟩ := ih e.2.2 hi hrest (by omega) hhi
      exact ⟨e', List.mem_cons_of_mem _ he', h1, h2⟩

/-- If some recorded interval cannot be filled from `θ`, the unroll loop
fails (whatever the accumulator). -/
theorem unrollLoop_fail (params : κ → Option NDArr) (θ : List ℚ) :
    ∀ (pos : List (κ × ℕ × ℕ)) (acc : κ → Option NDArr),
    (∃ e ∈ pos, ∀ a, params e.1 = some a →
      (pySlice θ e.2.1 e.2.2).length ≠ a.shape.prod) →
    exceptOk (unrollLoop params θ pos acc) = false := by
  intro pos
  induction pos with
  | nil => intro acc h; simp at h
  | cons e0 rest ih =>
    intro acc hw
    obtain ⟨e, he, hbad⟩ := hw
    obtain ⟨k, fi, ti⟩ := e0
    cases hk : params k with
    | none => simp [unrollLoop, hk, exceptOk]
    | some a =>
      cases hre : npReshape (pySlice θ fi ti) a.shape with
      | none => simp [unrollLoop, hk, hre, exceptOk]
      | some b =>
        rcases List.mem_cons.mp he with he' | he'
        · exfalso
          subst he'
          have : (pySlice θ fi ti).length = a.shape.prod := by
            unfold npReshape at hre
            by_cases hc : (pySlice θ fi ti).length = a.shape.prod
            · exact hc
            · rw [if_neg hc] at hre; exact absurd hre (by simp)
          exact hbad a hk this
        · simp only [unrollLoop, hk, hre]
          exact ih _ ⟨e, he', hbad⟩

end DictErrLemmas

theorem wfb_eq {a : NDArr} (h : a.wfb = true) : a.data.length = a.shape.prod :=
  Nat.eq_of_beq_eq_true (by simpa [NDArr.wfb, NDArr.size] using h)

theorem is2Db_eq {a : NDArr} (h : a.is2Db = true) : a.shape.length = 2 :=
  Nat.eq_of_beq_eq_true (by simpa [NDArr.is2Db] using h)

section DictShort

variable {κ : Type} [DecidableEq κ]

/-- A vector strictly shorter than the flattened total makes
`vector_to_params` fail (with a `reshape` `ValueError`). -/
theorem vector_to_params_short_fails (params : κ → Option NDArr) (keys : List κ)
    (hnd : keys.Nodup)
    (hkeys : ∀ k ∈ keys, ∃ a, params k = some a ∧ a.wfb = true)
    (θ : List ℚ) (pos : List (κ × ℕ × ℕ))
    (heq : params_to_vector params keys = .ok (θ, pos))
    (v : List ℚ) (hshort : v.length < θ.length) :
    exceptOk (vector_to_params v (params, pos)) = false := by
  obtain ⟨θ1, pos1, heq', hgood⟩ := rollLoop_ok params keys [] [] hkeys (by simp)
  obtain ⟨ext, new, heq2, hcont⟩ := rollLoop_contig params keys [] []
    hnd (fun k hk => by obtain ⟨a, ha, _⟩ := hkeys k hk; simp [ha]) (by simp)
  rw [params_to_vector] at heq
  rw [heq] at heq' heq2
  simp only [List.nil_append, List.length_nil, Except.ok.injEq, Prod.mk.injEq]
    at heq' heq2
  simp only [List.nil_append] at hgood
  obtain ⟨h1, h2⟩ := heq'
  obtain ⟨h3, h4⟩ := heq2
  subst h1 h2
  rw [← h3] at hcont
  rw [← h4] at hcont
  obtain ⟨e, he, hx1, hx2⟩ := contig_cover pos 0 θ.length hcont
    (Nat.zero_le _) hshort
  obtain ⟨a, ha, hwf, hlen, _, _⟩ := hgood e he
  have hfail : ∀ a', params e.1 = some a' →
      (pySlice v e.2.1 e.2.2).length ≠ a'.shape.prod := by
    intro a' ha'
    rw [ha] at ha'
    obtain rfl := Option.some.inj ha'
    have hprod : a.shape.prod = a.data.length := (wfb_eq hwf).symm
    have hslice : (pySlice v e.2.1 e.2.2).length =
        min (e.2.2 - e.2.1) (v.length - e.2.1) := by
      simp [pySlice, List.length_take, List.length_drop]
    rw [hslice, hprod]
    omega
  have := unrollLoop_fail params v pos params ⟨e, he, hfail⟩
  simpa [vector_to_params] using this

end DictShort

/-! ## Lemmas about the layer roller -/

theorem foldl_append_eq {α : Type} (f : α → List ℚ) :
    ∀ (l : List α) (acc : List ℚ),
    l.foldl (fun th x => th ++ f x) acc = acc ++ l.flatMap f := by
  intro l
  induction l with
  | nil => intro acc; simp
  | cons x l ih => intro acc; simp [ih, List.append_assoc]

theorem rollColl_none : rollColl none = [] := rfl

theorem rollColl_some (ps : List (String × NDArr)) :
    rollColl (some ps) = ps.flatMap (fun p => p.2.data) := rfl

theorem roll_params_eq (layers : List Layer) (pt : PType) :
    roll_params layers pt = layers.flatMap (fun l => rollColl (l.get pt)) := by
  suffices h : ∀ (ls : List Layer) (acc : List ℚ),
      ls.foldl (fun theta l =>
        match l.get pt with
        | none => theta
        | some ps => ps.foldl (fun th p => th ++ p.2.data) theta) acc
      = acc ++ ls.flatMap (fun l => rollColl (l.get pt)) by
    simpa [roll_params] using h layers []
  intro ls
  induction ls with
  | nil => intro acc; simp
  | cons l ls ih =>
    intro acc
    cases hl : l.get pt with
    | none => simp [hl, ih, rollColl]
    | some ps =>
      simp only [List.foldl_cons, hl, List.flatMap_cons]
      rw [ih, foldl_append_eq (fun p => p.2.data) ps acc, rollColl_some,
        List.append_assoc]

theorem Layer.set_get (l : Layer) (pt : PType) : l.set pt (l.get pt) = l := by
  cases l
  cases pt <;> rfl

theorem zipWith_set_get (pt : PType) (ls : List Layer) :
    List.zipWith (fun l0 l => l.set pt (l0.get pt)) ls ls = ls := by
  induction ls with
  | nil => rfl
  | cons l ls ih => simp [Layer.set_get, ih]

theorem unrollColl_eq :
    ∀ (ps0 ps : List (String × NDArr)) (pre rest : List ℚ),
    collKS ps0 = collKS ps →
    (∀ p ∈ ps0, p.2.wfb = true ∧ p.2.is2Db = true) →
    unrollColl (pre ++ (ps0.flatMap (fun p => p.2.data) ++ rest)) ps pre.length =
      .ok (ps0, pre.length + (ps0.flatMap (fun p => p.2.data)).length) := by
  intro ps0
  induction ps0 with
  | nil =>
    intro ps pre rest hks _
    have hps : ps = [] := by
      have := hks.symm
      simpa [collKS] using this
    subst hps
    simp [unrollColl]
  | cons p0 ps0 ih =>
    intro ps pre rest hks hwf
    obtain ⟨k0, a0⟩ := p0
    cases ps with
    | nil => simp [collKS] at hks
    | cons p ps' =>
      obtain ⟨k, a⟩ := p
      simp only [collKS, List.map_cons, List.cons.injEq, Prod.mk.injEq] at hks
      obtain ⟨⟨hk, hsh⟩, htail⟩ := hks
      obtain ⟨hwf0, h2d0⟩ := hwf (k0, a0) (List.mem_cons_self _ _)
      obtain ⟨r, c, hrc⟩ := List.length_eq_two.mp (is2Db_eq h2d0)
      have hd0 : a0.data.length = r * c := by
        have := wfb_eq hwf0
        rw [hrc] at this
        simpa using this
      have hashape : a.shape = [r, c] := by rw [← hsh, hrc]
      obtain ⟨sa, da⟩ := a
      simp only at hashape
      subst hashape
      simp only [List.flatMap_cons]
      rw [List.append_assoc a0.data]
      simp only [unrollColl]
      have hslice : pySlice
          (pre ++ (a0.data ++ (ps0.flatMap (fun p => p.2.data) ++ rest)))
          pre.length (pre.length + r * c) = a0.data := by
        rw [← hd0]
        exact pySlice_at_append pre a0.data _
      have hre : npReshape
          (pySlice (pre ++ (a0.data ++ (ps0.flatMap (fun p => p.2.data) ++ rest)))
            pre.length (pre.length + r * c)) [r, c] = some ⟨[r, c], a0.data⟩ := by
        rw [hslice]
        unfold npReshape
        rw [if_pos (by simpa using hd0)]
      have hidx : (pre ++ a0.data).length = pre.length + r * c := by
        simp [hd0]
      have hrec := ih ps' (pre ++ a0.data) rest htail
        (fun p hp => hwf p (List.mem_cons_of_mem _ hp))
      rw [List.append_assoc, hidx] at hrec
      have ha0 : (⟨[r, c], a0.data⟩ : NDArr) = a0 := by
        obtain ⟨s0, d0⟩ := a0
        simp only at hrc
        rw [hrc]
      simp only [hre, hrec, ha0, ← hk, Except.ok.injEq, Prod.mk.injEq,
        List.cons.injEq, List.length_append, true_and]
      rw [hd0]
      ring

theorem collShapes_none {o : Option (List (String × NDArr))}
    (h : collShapes o = none) : o = none := by
  cases o with
  | none => rfl
  | some ps => simp [collShapes] at h

theorem collOkB_mem {ps : List (String × NDArr)} (h : collOkB (some ps) = true) :
    ∀ p ∈ ps, p.2.wfb = true ∧ p.2.is2Db = true := by
  intro p hp
  simp only [collOkB, List.all_eq_true] at h
  have := h p hp
  simp only [Bool.and_eq_true] at this
  exact this

theorem Layer.set_none (l : Layer) (pt : PType) (h : l.get pt = none) :
    l.set pt none = l := by
  rw [← h]
  exact Layer.set_get l pt

theorem unrollLayers_eq (pt : PType) :
    ∀ (ls0 ls : List Layer) (pre rest : List ℚ),
    ptShapes ls0 pt = ptShapes ls pt →
    (∀ l ∈ ls0, collOkB (l.get pt) = true) →
    unrollLayers (pre ++ (ls0.flatMap (fun l => rollColl (l.get pt)) ++ rest))
        pt ls pre.length =
      .ok (List.zipWith (fun l0 l => l.set pt (l0.get pt)) ls0 ls,
           pre.length + (ls0.flatMap (fun l => rollColl (l.get pt))).length) := by
  intro ls0
  induction ls0 with
  | nil =>
    intro ls pre rest hsh _
    have hls : ls = [] := by
      have := hsh.symm
      simpa [ptShapes] using this
    subst hls
    simp [unrollLayers]
  | cons l0 ls0 ih =>
    intro ls pre rest hsh hwf
    cases ls with
    | nil => simp [ptShapes] at hsh
    | cons l ls' =>
      simp only [ptShapes, List.map_cons, List.cons.injEq] at hsh
      obtain ⟨hhead, htail⟩ := hsh
      have hwf0 := hwf l0 (List.mem_cons_self _ _)
      have hwfrest : ∀ l' ∈ ls0, collOkB (l'.get pt) = true :=
        fun l' hl' => hwf l' (List.mem_cons_of_mem _ hl')
      cases hl0 : l0.get pt with
      | none =>
        have hl : l.get pt = none := by
          apply collShapes_none
          have hhead2 : collShapes (l0.get pt) = collShapes (l.get pt) := hhead
          rw [← hhead2, hl0]
          rfl
        have hrec := ih ls' pre rest htail hwfrest
        simp only [List.flatMap_cons, hl0, rollColl_none, List.nil_append,
          List.zipWith_cons_cons, unrollLayers, hl, hrec]
        rw [Layer.set_none l pt hl]
      | some ps0 =>
        have hps : ∃ ps, l.get pt = some ps ∧ collKS ps0 = collKS ps := by
          have hhead2 : collShapes (l0.get pt) = collShapes (l.get pt) := hhead
          rw [hl0] at hhead2
          cases hlg : l.get pt with
          | none => rw [hlg] at hhead2; simp [collShapes] at hhead2
          | some ps =>
            rw [hlg] at hhead2
            exact ⟨ps, rfl, by simpa [collShapes] using hhead2⟩
        obtain ⟨ps, hl, hks⟩ := hps
        have hwfps : ∀ p ∈ ps0, p.2.wfb = true ∧ p.2.is2Db = true :=
          collOkB_mem (by rw [← hl0]; exact hwf0)
        simp only [List.flatMap_cons, hl0, rollColl_some]
        rw [List.append_assoc (ps0.flatMap (fun p => p.2.data))]
        have hcoll := unrollColl_eq ps0 ps pre
          ((ls0.flatMap (fun l => rollColl (l.get pt))) ++ rest) hks hwfps
        have hidx : (pre ++ ps0.flatMap (fun p => p.2.data)).length =
            pre.length + (ps0.flatMap (fun p => p.2.data)).length := by
          simp
        have hrec := ih ls' (pre ++ ps0.flatMap (fun p => p.2.data)) rest
          htail hwfrest
        rw [List.append_assoc, hidx] at hrec
        simp only [unrollLayers, hl, hcoll, hrec, List.zipWith_cons_cons, hl0,
          Except.ok.injEq, Prod.mk.injEq, List.cons.injEq, List.length_append]
        exact ⟨trivial, by ring⟩

/-- Master lemma for the layer roller: unrolling the roll of `ls0` (with any
junk appended) into any layer list `ls` with the same key/shape skeleton
succeeds and transplants `ls0`'s collections into `ls`. -/
theorem unroll_roll (pt : PType) (ls0 ls : List Layer) (ext : List ℚ)
    (hsh : ptShapes ls0 pt = ptShapes ls pt)
    (hwf : ∀ l ∈ ls0, collOkB (l.get pt) = true) :
    unroll_params (roll_params ls0 pt ++ ext) ls pt =
      .ok (List.zipWith (fun l0 l => l.set pt (l0.get pt)) ls0 ls) := by
  have h := unrollLayers_eq pt ls0 ls [] ext hsh hwf
  simp only [List.nil_append, List.length_nil] at h
  rw [unroll_params, roll_params_eq, h]

/-! ### Generic facts about `unroll_params` used by the estimator -/

theorem npReshape_some {d : List ℚ} {s : List ℕ} {b : NDArr}
    (h : npReshape d s = some b) : b.shape = s ∧ b.data = d := by
  unfold npReshape at h
  by_cases hc : d.length = s.prod
  · rw [if_pos hc] at h
    obtain rfl := Option.some.inj h
    exact ⟨rfl, rfl⟩
  · rw [if_neg hc] at h
    exact absurd h (by simp)

theorem Layer.set_params_kind (l : Layer) (c) : (l.set .params c).kind = l.kind := by
  cases l; rfl

theorem Layer.set_params_grads (l : Layer) (c) : (l.set .params c).grads = l.grads := by
  cases l; rfl

theorem Layer.set_params_get (l : Layer) (c) : (l.set .params c).get .params = c := by
  cases l; rfl

theorem Layer.set_grads_get (l : Layer) (c) : (l.set .grads c).get .grads = c := by
  cases l; rfl

theorem Layer.set_params_congr {l m : Layer} (hk : l.kind = m.kind)
    (hg : l.grads = m.grads) (c) : l.set .params c = m.set .params c := by
  cases l; cases m
  simp only [Layer.set]
  simp_all

theorem unrollColl_congr (v : List ℚ) :
    ∀ (ps ps' : List (String × NDArr)) (i : ℕ), collKS ps = collKS ps' →
    unrollColl v ps i = unrollColl v ps' i := by
  intro ps
  induction ps with
  | nil =>
    intro ps' i h
    have : ps' = [] := by simpa [collKS] using h.symm
    subst this; rfl
  | cons p ps ih =>
    intro ps' i h
    cases ps' with
    | nil => simp [collKS] at h
    | cons q ps'' =>
      obtain ⟨k, a⟩ := p
      obtain ⟨k', a'⟩ := q
      simp only [collKS, List.map_cons, List.cons.injEq, Prod.mk.injEq] at h
      obtain ⟨⟨hk, hsh⟩, ht⟩ := h
      subst hk
      cases hs : a.shape with
      | nil => simp [unrollColl, ← hsh, hs]
      | cons r stail =>
        cases stail with
        | nil => simp [unrollColl, ← hsh, hs]
        | cons c srest =>
          simp only [unrollColl, ← hsh, hs]
          rw [ih ps'' (i + r * c) ht]

theorem unrollLayers_congr (v : List ℚ) :
    ∀ (ls ls' : List Layer) (i : ℕ), modData ls = modData ls' →
    unrollLayers v .params ls i = unrollLayers v .params ls' i := by
  intro ls
  induction ls with
  | nil =>
    intro ls' i h
    have : ls' = [] := by simpa [modData] using h.symm
    subst this; rfl
  | cons l ls ih =>
    intro ls' i h
    cases ls' with
    | nil => simp [modData] at h
    | cons m ls'' =>
      simp only [modData, List.map_cons, List.cons.injEq, Prod.mk.injEq] at h
      obtain ⟨⟨hkind, hgrads, hpsh⟩, ht⟩ := h
      have hpsh' : collShapes (l.get .params) = collShapes (m.get .params) := hpsh
      cases hl : l.get .params with
      | none =>
        have hm : m.get .params = none := collShapes_none (by rw [← hpsh', hl]; rfl)
        have hlm : l = m := by
          cases l; cases m
          simp only [Layer.get] at hl hm
          simp_all
        rw [hlm]
        simp only [unrollLayers, hm]
        rw [ih ls'' i ht]
      | some ps =>
        rw [hl] at hpsh'
        have hps : ∃ ps', m.get .params = some ps' ∧ collKS ps = collKS ps' := by
          cases hmg : m.get .params with
          | none => rw [hmg] at hpsh'; simp [collShapes] at hpsh'
          | some ps' =>
            rw [hmg] at hpsh'
            exact ⟨ps', rfl, by simpa [collShapes] using hpsh'⟩
        obtain ⟨ps', hm, hks⟩ := hps
        simp only [unrollLayers, hl, hm]
        rw [unrollColl_congr v ps ps' i hks]
        cases hx : unrollColl v ps' i with
        | error e => rfl
        | ok pi =>
          obtain ⟨ps'', i'⟩ := pi
          simp only
          rw [ih ls'' i' ht, Layer.set_params_congr hkind hgrads]

theorem unrollColl_ks (v : List ℚ) :
    ∀ (ps : List (String × NDArr)) (i : ℕ) (ps' : List (String × NDArr)) (i' : ℕ),
    unrollColl v ps i = .ok (ps', i') → collKS ps' = collKS ps := by
  intro ps
  induction ps with
  | nil =>
    intro i ps' i' h
    simp only [unrollColl, Except.ok.injEq, Prod.mk.injEq] at h
    rw [← h.1]
  | cons p ps ih =>
    intro i ps' i' h
    obtain ⟨k, a⟩ := p
    cases hs : a.shape with
    | nil => simp [unrollColl, hs] at h
    | cons r stail =>
      cases stail with
      | nil => simp [unrollColl, hs] at h
      | cons c srest =>
        simp only [unrollColl, hs] at h
        cases hre : npReshape (pySlice v i (i + r * c)) (r :: c :: srest) with
        | none => rw [hre] at h; exact absurd h (by simp)
        | some b =>
          rw [hre] at h
          cases hrec : unrollColl v ps (i + r * c) with
          | error e => rw [hrec] at h; exact absurd h (by simp)
          | ok pi =>
            obtain ⟨rest', i2⟩ := pi
            rw [hrec] at h
            simp only [Except.ok.injEq, Prod.mk.injEq] at h
            obtain ⟨h1, _⟩ := h
            rw [← h1]
            simp only [collKS, List.map_cons]
            rw [(npReshape_some hre).1, ← hs]
            have := ih (i + r * c) rest' i2 hrec
            simp only [collKS] at this
            rw [this]

theorem unrollLayers_modData (v : List ℚ) :
    ∀ (ls : List Layer) (i : ℕ) (ls' : List Layer) (i' : ℕ),
    unrollLayers v .params ls i = .ok (ls', i') → modData ls' = modData ls := by
  intro ls
  induction ls with
  | nil =>
    intro i ls' i' h
    simp only [unrollLayers, Except.ok.injEq, Prod.mk.injEq] at h
    rw [← h.1]
  | cons l ls ih =>
    intro i ls' i' h
    cases hl : l.get .params with
    | none =>
      simp only [unrollLayers, hl] at h
      cases hrec : unrollLayers v .params ls i with
      | error e => rw [hrec] at h; exact absurd h (by simp)
      | ok pi =>
        obtain ⟨ls2, i2⟩ := pi
        rw [hrec] at h
        simp only [Except.ok.injEq, Prod.mk.injEq] at h
        rw [← h.1]
        simp only [modData, List.map_cons]
        rw [show List.map (fun l => (l.kind, l.grads, l.ptShape PType.params)) ls2
            = modData ls2 from rfl, ih i ls2 i2 hrec]
        rfl
    | some ps =>
      simp only [unrollLayers, hl] at h
      cases hcoll : unrollColl v ps i with
      | error e => simp [hcoll] at h
      | ok pi =>
        obtain ⟨ps', i2⟩ := pi
        simp only [hcoll] at h
        cases hrec : unrollLayers v .params ls i2 with
        | error e => simp [hrec] at h
        | ok pi2 =>
          obtain ⟨ls2, i3⟩ := pi2
          simp only [hrec, Except.ok.injEq, Prod.mk.injEq] at h
          rw [← h.1]
          simp only [modData, List.map_cons, List.cons.injEq, Prod.mk.injEq]
          refine ⟨⟨?_, ?_, ?_⟩, ?_⟩
          · exact Layer.set_params_kind l _
          · exact Layer.set_params_grads l _
          · simp only [Layer.ptShape, Layer.set_params_get, hl, collShapes]
            rw [unrollColl_ks v ps i ps' i2 hcoll]
          · have := ih i2 ls2 i3 hrec
            simpa [modData] using this

theorem dims2_of_2D {a : NDArr} {r c : ℕ} (h : a.shape = [r, c]) :
    a.dims2 = r * c := by
  simp [NDArr.dims2, h]

theorem collIs2DB_some (ps : List (String × NDArr)) :
    collIs2DB (some ps) = ps.all (fun p => p.2.is2Db) := rfl

theorem collSize2_none : collSize2 none = 0 := rfl

theorem collSize2_some (ps : List (String × NDArr)) :
    collSize2 (some ps) = (ps.map (fun p => p.2.dims2)).sum := rfl

theorem unrollColl_ok (v : List ℚ) :
    ∀ (ps : List (String × NDArr)) (i : ℕ),
    (∀ p ∈ ps, p.2.is2Db = true) →
    i + (ps.map (fun p => p.2.dims2)).sum ≤ v.length →
    ∃ ps', unrollColl v ps i = .ok (ps', i + (ps.map (fun p => p.2.dims2)).sum) := by
  intro ps
  induction ps with
  | nil =>
    intro i _ _
    exact ⟨[], by simp [unrollColl]⟩
  | cons p ps ih =>
    intro i h2d hlen
    obtain ⟨k, a⟩ := p
    obtain ⟨r, c, hs⟩ := List.length_eq_two.mp
      (is2Db_eq (h2d (k, a) (List.mem_cons_self _ _)))
    simp only at hs
    obtain ⟨sa, da⟩ := a
    simp only at hs
    subst hs
    have hd2 : (⟨[r, c], da⟩ : NDArr).dims2 = r * c := dims2_of_2D rfl
    simp only [List.map_cons, List.sum_cons, hd2] at hlen ⊢
    have hslen : (pySlice v i (i + r * c)).length = r * c := by
      simp only [pySlice, List.length_take, List.length_drop]
      omega
    have hre : npReshape (pySlice v i (i + r * c)) [r, c] =
        some ⟨[r, c], pySlice v i (i + r * c)⟩ := by
      unfold npReshape
      rw [if_pos (by simpa using hslen)]
    obtain ⟨ps', hrec⟩ := ih (i + r * c)
      (fun p hp => h2d p (List.mem_cons_of_mem _ hp))
      (by omega)
    refine ⟨(k, ⟨[r, c], pySlice v i (i + r * c)⟩) :: ps', ?_⟩
    simp only [unrollColl, hre, hrec]
    have harith : i + r * c + (ps.map (fun p => p.2.dims2)).sum =
        i + (r * c + (ps.map (fun p => p.2.dims2)).sum) := by ring
    rw [harith]

theorem unrollLayers_ok (v : List ℚ) (pt : PType) :
    ∀ (ls : List Layer) (i : ℕ),
    (∀ l ∈ ls, collIs2DB (l.get pt) = true) →
    i + ptSize ls pt ≤ v.length →
    ∃ ls', unrollLayers v pt ls i = .ok (ls', i + ptSize ls pt) := by
  intro ls
  induction ls with
  | nil =>
    intro i _ _
    exact ⟨[], by simp [unrollLayers, ptSize]⟩
  | cons l ls ih =>
    intro i h2d hlen
    have h2dl := h2d l (List.mem_cons_self _ _)
    have h2drest : ∀ l' ∈ ls, collIs2DB (l'.get pt) = true :=
      fun l' hl' => h2d l' (List.mem_cons_of_mem _ hl')
    simp only [ptSize, List.map_cons, List.sum_cons] at hlen ⊢
    cases hl : l.get pt with
    | none =>
      rw [hl] at hlen
      simp only [collSize2_none] at hlen ⊢
      obtain ⟨ls', hrec⟩ := ih i h2drest (by simpa [ptSize] using hlen)
      refine ⟨l :: ls', ?_⟩
      simp only [ptSize] at hrec
      simp only [unrollLayers, hl, hrec]
      simp
    | some ps =>
      rw [hl] at hlen h2dl
      rw [collSize2_some] at hlen ⊢
      have h2dps : ∀ p ∈ ps, p.2.is2Db = true := by
        rw [collIs2DB_some] at h2dl
        intro p hp
        exact List.all_eq_true.mp h2dl p hp
      obtain ⟨ps', hcoll⟩ := unrollColl_ok v ps i h2dps (by omega)
      obtain ⟨ls', hrec⟩ := ih (i + (ps.map (fun p => p.2.dims2)).sum) h2drest
        (by simp only [ptSize] at *; omega)
      refine ⟨l.set pt (some ps') :: ls', ?_⟩
      simp only [ptSize] at hrec
      simp only [unrollLayers, hl, hcoll, hrec]
      simp only [Except.ok.injEq, Prod.mk.injEq, List.cons.injEq, true_and]
      ring

theorem unroll_params_ok (v : List ℚ) (pt : PType) (ls : List Layer)
    (h2d : ∀ l ∈ ls, collIs2DB (l.get pt) = true)
    (hlen : ptSize ls pt ≤ v.length) :
    ∃ ls', unroll_params v ls pt = .ok ls' := by
  obtain ⟨ls', h⟩ := unrollLayers_ok v pt ls 0 h2d (by simpa using hlen)
  exact ⟨ls', by simp [unroll_params, h]⟩

theorem flat_data_length (ps : List (String × NDArr))
    (h : ∀ p ∈ ps, p.2.wfb = true ∧ p.2.is2Db = true) :
    (ps.flatMap (fun p => p.2.data)).length = (ps.map (fun p => p.2.dims2)).sum := by
  induction ps with
  | nil => rfl
  | cons p ps ih =>
    obtain ⟨hwf, h2d⟩ := h p (List.mem_cons_self _ _)
    obtain ⟨r, c, hs⟩ := List.length_eq_two.mp (is2Db_eq h2d)
    simp only [List.flatMap_cons, List.map_cons, List.sum_cons, List.length_append]
    rw [ih (fun q hq => h q (List.mem_cons_of_mem _ hq)), wfb_eq hwf, hs,
      dims2_of_2D hs]
    simp

theorem flatRoll_length (pt : PType) :
    ∀ ls : List Layer, (∀ l ∈ ls, collOkB (l.get pt) = true) →
    (ls.flatMap (fun l => rollColl (l.get pt))).length = ptSize ls pt := by
  intro ls
  induction ls with
  | nil => intro _; rfl
  | cons l ls ih =>
    intro hok
    simp only [List.flatMap_cons, List.length_append, ptSize, List.map_cons,
      List.sum_cons]
    have h1 : (rollColl (l.get pt)).length = collSize2 (l.get pt) := by
      cases ho : l.get pt with
      | none => rfl
      | some ps =>
        rw [rollColl_some, collSize2_some]
        exact flat_data_length ps (collOkB_mem (ho ▸ hok l (List.mem_cons_self _ _)))
    rw [h1]
    have := ih (fun l' hl' => hok l' (List.mem_cons_of_mem _ hl'))
    simp only [ptSize] at this
    rw [this]

theorem roll_params_length (ls : List Layer) (pt : PType)
    (hok : ∀ l ∈ ls, collOkB (l.get pt) = true) :
    (roll_params ls pt).length = ptSize ls pt := by
  rw [roll_params_eq]
  exact flatRoll_length pt ls hok

theorem collIs2DB_of_collOkB {o : Option (List (String × NDArr))}
    (h : collOkB o = true) : collIs2DB o = true := by
  cases o with
  | none => rfl
  | some ps =>
    rw [collIs2DB_some, List.all_eq_true]
    intro p hp
    exact (collOkB_mem h p hp).2

theorem layersOk_mem {ls : List Layer} (h : layersOk ls = true) :
    ∀ l ∈ ls, collOkB l.params = true ∧ collOkB l.grads = true := by
  simpa [layersOk, List.all_eq_true, Bool.and_eq_true] using h

/-! ### Projections of the skeleton data -/

theorem modData_kind {ls ls' : List Layer} (h : modData ls = modData ls') :
    ls.map (fun l => l.kind) = ls'.map (fun l => l.kind) := by
  have := congrArg (List.map (fun t => t.1)) h
  simpa [modData, List.map_map, Function.comp] using this

theorem modData_grads {ls ls' : List Layer} (h : modData ls = modData ls') :
    ls.map (fun l => l.grads) = ls'.map (fun l => l.grads) := by
  have := congrArg (List.map (fun t => t.2.1)) h
  simpa [modData, List.map_map, Function.comp] using this

theorem modData_ptShapes {ls ls' : List Layer} (h : modData ls = modData ls') :
    ptShapes ls .params = ptShapes ls' .params := by
  have := congrArg (List.map (fun t => t.2.2)) h
  simpa [modData, ptShapes, List.map_map, Function.comp] using this

theorem layersSkel_kind {ls ls' : List Layer} (h : layersSkel ls = layersSkel ls') :
    ls.map (fun l => l.kind) = ls'.map (fun l => l.kind) := by
  have := congrArg (List.map (fun t => t.1)) h
  simpa [layersSkel, List.map_map, Function.comp] using this

theorem layersSkel_params {ls ls' : List Layer} (h : layersSkel ls = layersSkel ls') :
    ptShapes ls .params = ptShapes ls' .params := by
  have := congrArg (List.map (fun t => t.2.1)) h
  simpa [layersSkel, ptShapes, List.map_map, Function.comp] using this

theorem layersSkel_grads {ls ls' : List Layer} (h : layersSkel ls = layersSkel ls') :
    ptShapes ls .grads = ptShapes ls' .grads := by
  have := congrArg (List.map (fun t => t.2.2)) h
  simpa [layersSkel, ptShapes, List.map_map, Function.comp] using this

/-! ### `getD`/`set` bookkeeping -/

theorem getD_set_self {l : List ℚ} {i : ℕ} {v : ℚ} (h : i < l.length) :
    (l.set i v).getD i 0 = v := by
  induction l generalizing i with
  | nil => simp at h
  | cons x xs ih =>
    cases i with
    | zero => rfl
    | succ n =>
      simp only [List.set_cons_succ, List.getD_cons_succ]
      exact ih (by simpa using h)

theorem getD_set_ne {l : List ℚ} {i j : ℕ} {v : ℚ} (h : i ≠ j) :
    (l.set i v).getD j 0 = l.getD j 0 := by
  induction l generalizing i j with
  | nil => simp
  | cons x xs ih =>
    cases i with
    | zero =>
      cases j with
      | zero => exact absurd rfl h
      | succ m => rfl
    | succ n =>
      cases j with
      | zero => rfl
      | succ m =>
        simp only [List.set_cons_succ, List.getD_cons_succ]
        exact ih (fun hh => h (by rw [hh]))

theorem unroll_params_congr (v : List ℚ) {ls ls' : List Layer}
    (h : modData ls = modData ls') :
    unroll_params v ls .params = unroll_params v ls' .params := by
  unfold unroll_params
  rw [unrollLayers_congr v ls ls' 0 h]

theorem unroll_params_modData {v : List ℚ} {ls ls' : List Layer}
    (h : unroll_params v ls .params = .ok ls') : modData ls' = modData ls := by
  unfold unroll_params at h
  cases hx : unrollLayers v .params ls 0 with
  | error e => rw [hx] at h; exact absurd h (by simp)
  | ok pi =>
    obtain ⟨ls2, i2⟩ := pi
    rw [hx] at h
    simp only [Except.ok.injEq] at h
    rw [← h]
    exact unrollLayers_modData v ls 0 ls2 i2 hx

section GcLoop

variable {Output : Type}

theorem gcLoop_ok (fwdPredict : List Layer → Output × List Layer)
    (computeCost : Output → ℚ) (θ : List ℚ) (eps : ℚ) (base : List Layer)
    (hPred : ∀ ls, (fwdPredict ls).2 = ls)
    (hθ : θ.length = ptSize base .params)
    (h2d : ∀ l ∈ base, collIs2DB (l.get .params) = true) :
    ∀ (idxs : List ℕ) (ga : List ℚ) (ls : List Layer),
    modData ls = modData base →
    ga.length = θ.length →
    (∀ i ∈ idxs, i < θ.length) →
    idxs.Nodup →
    ∃ ga' ls', gcLoop fwdPredict computeCost θ eps idxs ga ls = .ok (ga', ls') ∧
      modData ls' = modData base ∧ ga'.length = θ.length ∧
      ∀ j, ga'.getD j 0 = if j ∈ idxs then
          (refCostD fwdPredict computeCost base (θ.set j (θ.getD j 0 + eps)) -
           refCostD fwdPredict computeCost base (θ.set j (θ.getD j 0 - eps)))
            / (2 * eps)
        else ga.getD j 0 := by
  intro idxs
  induction idxs with
  | nil =>
    intro ga ls hmod hga _ _
    exact ⟨ga, ls, rfl, hmod, hga, by simp⟩
  | cons i rest ih =>
    intro ga ls hmod hga hbound hnd
    have hi : i < θ.length := hbound i (List.mem_cons_self _ _)
    have hstep : ∀ (v : List ℚ) (lsc : List Layer), v.length = θ.length →
        modData lsc = modData base →
        ∃ lsn, unroll_params v lsc .params = .ok lsn ∧
          modData lsn = modData base ∧
          gcStep fwdPredict computeCost v lsc =
            .ok (refCostD fwdPredict computeCost base v, lsn) := by
      intro v lsc hv hmodc
      obtain ⟨lsn, hok⟩ := unroll_params_ok v .params base h2d (by omega)
      have habs : unroll_params v lsc .params = .ok lsn := by
        rw [unroll_params_congr v hmodc, hok]
      refine ⟨lsn, habs, ?_, ?_⟩
      · rw [unroll_params_modData hok]
      · simp only [gcStep, habs, refCostD, hok, hPred lsn]
    obtain ⟨lsP, hokP, hmodP, hstepP⟩ := hstep (θ.set i (θ.getD i 0 + eps)) ls
      (by simp) hmod
    obtain ⟨lsM, hokM, hmodM, hstepM⟩ := hstep (θ.set i (θ.getD i 0 - eps)) lsP
      (by simp) hmodP
    have hnotin : i ∉ rest := (List.nodup_cons.mp hnd).1
    obtain ⟨ga', ls', heq, hmod', hga', hget⟩ := ih
      (ga.set i ((refCostD fwdPredict computeCost base (θ.set i (θ.getD i 0 + eps)) -
        refCostD fwdPredict computeCost base (θ.set i (θ.getD i 0 - eps)))
          / (2 * eps))) lsM hmodM (by simpa using hga)
      (fun j hj => hbound j (List.mem_cons_of_mem _ hj))
      (List.nodup_cons.mp hnd).2
    refine ⟨ga', ls', ?_, hmod', hga', ?_⟩
    · simp only [gcLoop, hstepP, hstepM]
      exact heq
    · intro j
      by_cases hj : j ∈ rest
      · rw [hget j, if_pos hj, if_pos (List.mem_cons_of_mem _ hj)]
      · by_cases hji : j = i
        · subst hji
          rw [hget j, if_neg hj, if_pos (List.mem_cons_self _ _)]
          exact getD_set_self (by omega)
        · rw [hget j, if_neg hj, if_neg (by
            intro hmem
            rcases List.mem_cons.mp hmem with h' | h'
            · exact hji h'
            · exact hj h')]
          exact getD_set_ne (fun hh => hji hh.symm)

end GcLoop

theorem zipWith_setparams_grads : ∀ (ls0 ls3 : List Layer),
    ls0.length = ls3.length →
    (List.zipWith (fun l0 l => l.set .params (l0.get .params)) ls0 ls3).map
        (fun l => l.grads) = ls3.map (fun l => l.grads) := by
  intro ls0
  induction ls0 with
  | nil =>
    intro ls3 h
    have : ls3 = [] := List.length_eq_zero.mp h.symm
    subst this; rfl
  | cons l0 ls0 ih =>
    intro ls3 h
    cases ls3 with
    | nil => simp at h
    | cons l3 ls3 =>
      simp only [List.zipWith_cons_cons, List.map_cons, Layer.set_params_grads]
      rw [ih ls3 (by simpa using h)]

theorem zip_restore : ∀ (ls0 ls3 : List Layer),
    ls3.map (fun l => l.kind) = ls0.map (fun l => l.kind) →
    List.zipWith (fun l0 l => l.set .grads (l0.get .grads)) ls0
      (List.zipWith (fun l0 l => l.set .params (l0.get .params)) ls0 ls3) = ls0 := by
  intro ls0
  induction ls0 with
  | nil => intro ls3 _; rfl
  | cons l0 ls0 ih =>
    intro ls3 h
    cases ls3 with
    | nil => simp at h
    | cons l3 ls3 =>
      simp only [List.map_cons, List.cons.injEq] at h
      obtain ⟨hk, ht⟩ := h
      simp only [List.zipWith_cons_cons, List.cons.injEq]
      constructor
      · obtain ⟨k0, p0, g0⟩ := l0
        obtain ⟨k3, p3, g3⟩ := l3
        simp only at hk
        simp [Layer.set, Layer.get, hk]
      · exact ih ls3 ht

theorem ptShapes_grads_eq {ls ls' : List Layer}
    (h : ls.map (fun l => l.grads) = ls'.map (fun l => l.grads)) :
    ptShapes ls .grads = ptShapes ls' .grads := by
  have := congrArg (List.map collShapes) h
  simpa [ptShapes, List.map_map, Function.comp, Layer.ptShape, Layer.get]
    using this

section ComputeErrorFull

variable {Output : Type}

/-- Full characterization of `compute_error` (core part): under the
collaborator contract, it succeeds, the returned analytic vector is the
post-backward rolled gradient, every approximated coordinate is the central
difference of costs evaluated at perturbations of the original `param_theta`
installed into the fixed post-backward state, and the final layers are the
entry layers. -/
theorem compute_error_core_full
    (fwdTrain : List Layer → Output × List Layer)
    (bwd : Output → List Layer → List Layer)
    (fwdPredict : List Layer → Output × List Layer)
    (computeCost : Output → ℚ) (ls0 : List Layer) (eps : ℚ)
    (hbad : ls0.any (fun l => l.kind == LayerKind.dropout
      || l.kind == LayerKind.batchnorm) = false)
    (hok0 : layersOk ls0 = true)
    (hok2 : layersOk (postBackward fwdTrain bwd ls0) = true)
    (hskel : layersSkel (postBackward fwdTrain bwd ls0) = layersSkel ls0)
    (hPred : ∀ ls, (fwdPredict ls).2 = ls) :
    ∃ ga, compute_error_core fwdTrain bwd fwdPredict computeCost none ls0 eps =
        .ok (roll_params (postBackward fwdTrain bwd ls0) .grads, ga, ls0) ∧
      ga.length = (roll_params (postBackward fwdTrain bwd ls0) .params).length ∧
      ∀ i, i < (roll_params (postBackward fwdTrain bwd ls0) .params).length →
        exceptOk (unroll_params
          ((roll_params (postBackward fwdTrain bwd ls0) .params).set i
            ((roll_params (postBackward fwdTrain bwd ls0) .params).getD i 0 + eps))
          (postBackward fwdTrain bwd ls0) .params) = true ∧
        exceptOk (unroll_params
          ((roll_params (postBackward fwdTrain bwd ls0) .params).set i
            ((roll_params (postBackward fwdTrain bwd ls0) .params).getD i 0 - eps))
          (postBackward fwdTrain bwd ls0) .params) = true ∧
        ga.getD i 0 =
          (refCostD fwdPredict computeCost (postBackward fwdTrain bwd ls0)
            ((roll_params (postBackward fwdTrain bwd ls0) .params).set i
              ((roll_params (postBackward fwdTrain bwd ls0) .params).getD i 0 + eps)) -
           refCostD fwdPredict computeCost (postBackward fwdTrain bwd ls0)
            ((roll_params (postBackward fwdTrain bwd ls0) .params).set i
              ((roll_params (postBackward fwdTrain bwd ls0) .params).getD i 0 - eps)))
          / (2 * eps) := by
  set ls2 := postBackward fwdTrain bwd ls0 with hls2
  set θ := roll_params ls2 .params with hθdef
  have hmem2 := layersOk_mem hok2
  have hokp2 : ∀ l ∈ ls2, collOkB (l.get .params) = true :=
    fun l hl => (hmem2 l hl).1
  have h2d2 : ∀ l ∈ ls2, collIs2DB (l.get .params) = true :=
    fun l hl => collIs2DB_of_collOkB ((hmem2 l hl).1)
  have hθlen : θ.length = ptSize ls2 .params := roll_params_length ls2 .params hokp2
  obtain ⟨ga', ls3, hloop, hmod3, hga', hget⟩ := gcLoop_ok fwdPredict computeCost
    θ eps ls2 hPred hθlen h2d2 (List.range θ.length) (List.replicate θ.length 0)
    ls2 rfl (by simp) (fun i hi => List.mem_range.mp hi) (List.nodup_range _)
  have hokp0 : ∀ l ∈ ls0, collOkB (l.get .params) = true :=
    fun l hl => ((layersOk_mem hok0) l hl).1
  have hokg0 : ∀ l ∈ ls0, collOkB (l.get .grads) = true :=
    fun l hl => ((layersOk_mem hok0) l hl).2
  have hsh3 : ptShapes ls0 .params = ptShapes ls3 .params :=
    (layersSkel_params hskel).symm.trans (modData_ptShapes hmod3).symm
  have hrestp := unroll_roll .params ls0 ls3 [] hsh3 hokp0
  rw [List.append_nil] at hrestp
  have hlen32 : ls3.length = ls2.length := by
    have := congrArg List.length hmod3
    simpa [modData] using this
  have hlen20 : ls2.length = ls0.length := by
    have := congrArg List.length hskel
    simpa [layersSkel] using this
  have hshg : ptShapes ls0 .grads =
      ptShapes (List.zipWith (fun l0 l => l.set .params (l0.get .params)) ls0 ls3)
        .grads := by
    have h1 := ptShapes_grads_eq (zipWith_setparams_grads ls0 ls3 (by omega))
    have h2 := ptShapes_grads_eq (modData_grads hmod3)
    have h3 := layersSkel_grads hskel
    rw [h1, h2, h3]
  have hrestg := unroll_roll .grads ls0
    (List.zipWith (fun l0 l => l.set .params (l0.get .params)) ls0 ls3) [] hshg hokg0
  rw [List.append_nil] at hrestg
  have hkind03 : ls3.map (fun l => l.kind) = ls0.map (fun l => l.kind) :=
    (modData_kind hmod3).trans (layersSkel_kind hskel)
  have hfin := zip_restore ls0 ls3 hkind03
  rw [hfin] at hrestg
  refine ⟨ga', ?_, hga', ?_⟩
  · have hc1 : ¬ ((none : Option Unit).isSome = true) := by simp
    have hc2 : ¬ (ls0.any (fun l => l.kind == LayerKind.dropout
        || l.kind == LayerKind.batchnorm) = true) := by simp [hbad]
    simp only [compute_error_core, if_neg hc1, if_neg hc2]
    rw [← hls2, ← hθdef]
    simp only [hloop, hrestp, hrestg]
  · intro i hi
    have hvlen : ∀ x : ℚ, (θ.set i x).length = θ.length := by simp
    have hplus := unroll_params_ok (θ.set i (θ.getD i 0 + eps)) .params ls2 h2d2
      (by rw [hvlen]; omega)
    have hminus := unroll_params_ok (θ.set i (θ.getD i 0 - eps)) .params ls2 h2d2
      (by rw [hvlen]; omega)
    obtain ⟨lsp, hp⟩ := hplus
    obtain ⟨lsm, hm⟩ := hminus
    refine ⟨by rw [hp]; rfl, by rw [hm]; rfl, ?_⟩
    have := hget i
    rw [if_pos (List.mem_range.mpr hi)] at this
    exact this

end ComputeErrorFull

section RunCoreLemmas

variable {κ : Type} [DecidableEq κ]

theorem unrollLoop_ok_of_len (params : κ → Option NDArr) (θ v : List ℚ)
    (hlen : θ.length ≤ v.length) :
    ∀ (pos : List (κ × ℕ × ℕ)) (acc : κ → Option NDArr),
    (∀ e ∈ pos, goodPos params θ e) →
    ∃ p, unrollLoop params v pos acc = .ok p := by
  intro pos
  induction pos with
  | nil => intro acc _; exact ⟨acc, rfl⟩
  | cons e rest ih =>
    intro acc hgood
    obtain ⟨a, h1, h2, h3, h4, _⟩ := hgood e (List.mem_cons_self e rest)
    obtain ⟨k, fi, ti⟩ := e
    simp only at h1 h3 h4
    have hslen : (pySlice v fi ti).length = a.shape.prod := by
      simp only [pySlice, List.length_take, List.length_drop]
      have := wfb_eq (a := a) h2
      omega
    have hre : npReshape (pySlice v fi ti) a.shape =
        some ⟨a.shape, pySlice v fi ti⟩ := by
      unfold npReshape
      rw [if_pos hslen]
    obtain ⟨p, hp⟩ := ih (Function.update acc k (some ⟨a.shape, pySlice v fi ti⟩))
      (fun e' he' => hgood e' (List.mem_cons_of_mem _ he'))
    exact ⟨p, by simp only [unrollLoop, h1, hre, hp]⟩

theorem vector_to_params_ok_of_len (params : κ → Option NDArr) (θ v : List ℚ)
    (hlen : θ.length ≤ v.length) (pos : List (κ × ℕ × ℕ))
    (hgood : ∀ e ∈ pos, goodPos params θ e) :
    ∃ p, vector_to_params v (params, pos) = .ok p :=
  unrollLoop_ok_of_len params θ v hlen pos params hgood

theorem runLoop_ok (J : (κ → Option NDArr) → ℚ) (params : κ → Option NDArr)
    (pos : List (κ × ℕ × ℕ)) (θ : List ℚ) (eps : ℚ)
    (hgood : ∀ e ∈ pos, goodPos params θ e) :
    ∀ (idxs : List ℕ) (ga : List ℚ),
    ga.length = θ.length →
    (∀ i ∈ idxs, i < θ.length) →
    idxs.Nodup →
    ∃ ga', runLoop J (params, pos) θ eps idxs ga = .ok ga' ∧
      ga'.length = θ.length ∧
      ∀ j, ga'.getD j 0 = if j ∈ idxs then
          (refCostDictD J (params, pos) (θ.set j (θ.getD j 0 + eps)) -
           refCostDictD J (params, pos) (θ.set j (θ.getD j 0 - eps))) / (2 * eps)
        else ga.getD j 0 := by
  intro idxs
  induction idxs with
  | nil =>
    intro ga hga _ _
    exact ⟨ga, rfl, hga, by simp⟩
  | cons i rest ih =>
    intro ga hga hbound hnd
    have hi : i < θ.length := hbound i (List.mem_cons_self _ _)
    obtain ⟨pPlus, hp⟩ := vector_to_params_ok_of_len params θ
      (θ.set i (θ.getD i 0 + eps)) (by simp) pos hgood
    obtain ⟨pMinus, hm⟩ := vector_to_params_ok_of_len params θ
      (θ.set i (θ.getD i 0 - eps)) (by simp) pos hgood
    have hJp : J pPlus = refCostDictD J (params, pos) (θ.set i (θ.getD i 0 + eps)) := by
      simp only [refCostDictD, hp]
    have hJm : J pMinus = refCostDictD J (params, pos) (θ.set i (θ.getD i 0 - eps)) := by
      simp only [refCostDictD, hm]
    have hnotin : i ∉ rest := (List.nodup_cons.mp hnd).1
    obtain ⟨ga', heq, hga', hget⟩ := ih
      (ga.set i ((J pPlus - J pMinus) / (2 * eps))) (by simpa using hga)
      (fun j hj => hbound j (List.mem_cons_of_mem _ hj))
      (List.nodup_cons.mp hnd).2
    refine ⟨ga', ?_, hga', ?_⟩
    · simp only [runLoop, hp, hm]
      exact heq
    · intro j
      by_cases hj : j ∈ rest
      · rw [hget j, if_pos hj, if_pos (List.mem_cons_of_mem _ hj)]
      · by_cases hji : j = i
        · subst hji
          rw [hget j, if_neg hj, if_pos (List.mem_cons_self _ _)]
          rw [getD_set_self (by omega), hJp, hJm]
        · rw [hget j, if_neg hj, if_neg (by
            intro hmem
            rcases List.mem_cons.mp hmem with h' | h'
            · exact hji h'
            · exact hj h')]
          exact getD_set_ne (fun hh => hji hh.symm)

/-- Full characterization of `GradientCheck.run` (core part): both rolls
succeed, the loop succeeds, and every approximated coordinate is the central
difference of the model evaluated on the unflattened perturbation of the
original `param_theta`. -/
theorem run_core_full (reg : DictReg) (hreg : reg ≠ DictReg.dropoutReg)
    (params grads : κ → Option NDArr) (paramKeys gradKeys : List κ)
    (J : (κ → Option NDArr) → ℚ) (eps : ℚ)
    (hkp : ∀ k ∈ paramKeys, ∃ a, params k = some a ∧ a.wfb = true)
    (hkg : ∀ k ∈ gradKeys, ∃ a, grads k = some a ∧ a.wfb = true) :
    ∃ θ pos gradTheta gpos ga,
      params_to_vector params paramKeys = .ok (θ, pos) ∧
      params_to_vector grads gradKeys = .ok (gradTheta, gpos) ∧
      run_core reg params grads paramKeys gradKeys J eps = .ok (gradTheta, ga) ∧
      ga.length = θ.length ∧
      ∀ i, i < θ.length →
        exceptOk (vector_to_params (θ.set i (θ.getD i 0 + eps)) (params, pos))
          = true ∧
        exceptOk (vector_to_params (θ.set i (θ.getD i 0 - eps)) (params, pos))
          = true ∧
        ga.getD i 0 =
          (refCostDictD J (params, pos) (θ.set i (θ.getD i 0 + eps)) -
           refCostDictD J (params, pos) (θ.set i (θ.getD i 0 - eps))) / (2 * eps) := by
  obtain ⟨θ, pos, heqp, hgood⟩ := rollLoop_ok params paramKeys [] [] hkp (by simp)
  obtain ⟨gt, gpos, heqg, _⟩ := rollLoop_ok grads gradKeys [] [] hkg (by simp)
  simp only [List.nil_append] at heqp heqg hgood
  have hgood' : ∀ e ∈ pos, goodPos params θ e := hgood
  obtain ⟨ga, hloop, hga, hget⟩ := runLoop_ok J params pos θ eps hgood'
    (List.range θ.length) (List.replicate θ.length 0) (by simp)
    (fun i hi => List.mem_range.mp hi) (List.nodup_range _)
  refine ⟨θ, pos, gt, gpos, ga, heqp, heqg, ?_, hga, ?_⟩
  · simp only [run_core, if_neg hreg, params_to_vector] at *
    simp only [heqp, heqg, hloop]
  · intro i hi
    obtain ⟨pp, hpp⟩ := vector_to_params_ok_of_len params θ
      (θ.set i (θ.getD i 0 + eps)) (by simp) pos hgood'
    obtain ⟨pm, hpm⟩ := vector_to_params_ok_of_len params θ
      (θ.set i (θ.getD i 0 - eps)) (by simp) pos hgood'
    refine ⟨by rw [hpp]; rfl, by rw [hpm]; rfl, ?_⟩
    have := hget i
    rw [if_pos (List.mem_range.mpr hi)] at this
    exact this

end RunCoreLemmas

/-! ## Lemmas about the discrepancy scorer -/

theorem euclidNorm_nonneg {n : ℕ} (v : Fin n → ℝ) : 0 ≤ euclidNorm v :=
  Real.sqrt_nonneg _

theorem euclidNorm_zero {n : ℕ} : euclidNorm (0 : Fin n → ℝ) = 0 := by
  simp [euclidNorm]

theorem euclidNorm_pos {n : ℕ} {v : Fin n → ℝ} (h : v ≠ 0) : 0 < euclidNorm v := by
  apply Real.sqrt_pos.mpr
  obtain ⟨i, hi⟩ := Function.ne_iff.mp h
  refine Finset.sum_pos' (fun j _ => sq_nonneg _) ⟨i, Finset.mem_univ i, ?_⟩
  have : v i ≠ 0 := by simpa using hi
  positivity

theorem euclidNorm_sub_comm {n : ℕ} (A B : Fin n → ℝ) :
    euclidNorm (A - B) = euclidNorm (B - A) := by
  unfold euclidNorm
  congr 1
  apply Finset.sum_congr rfl
  intro i _
  simp only [Pi.sub_apply]
  ring

theorem unrollLayers_none_unchanged (θ : List ℚ) (pt : PType) :
    ∀ (ls : List Layer) (i : ℕ) (ls' : List Layer) (i' : ℕ),
    unrollLayers θ pt ls i = .ok (ls', i') →
    List.Forall₂ (fun l l' => l.get pt = none → l' = l) ls ls' := by
  intro ls
  induction ls with
  | nil =>
    intro i ls' i' h
    simp only [unrollLayers, Except.ok.injEq, Prod.mk.injEq] at h
    rw [← h.1]
    exact List.Forall₂.nil
  | cons l ls ih =>
    intro i ls' i' h
    cases hl : l.get pt with
    | none =>
      simp only [unrollLayers, hl] at h
      cases hrec : unrollLayers θ pt ls i with
      | error e => rw [hrec] at h; exact absurd h (by simp)
      | ok pi =>
        obtain ⟨ls2, i2⟩ := pi
        rw [hrec] at h
        simp only [Except.ok.injEq, Prod.mk.injEq] at h
        rw [← h.1]
        exact List.Forall₂.cons (fun _ => rfl) (ih i ls2 i2 hrec)
    | some ps =>
      simp only [unrollLayers, hl] at h
      cases hcoll : unrollColl θ ps i with
      | error e => simp [hcoll] at h
      | ok pi =>
        obtain ⟨ps', i2⟩ := pi
        simp only [hcoll] at h
        cases hrec : unrollLayers θ pt ls i2 with
        | error e => simp [hrec] at h
        | ok pi2 =>
          obtain ⟨ls2, i3⟩ := pi2
          simp only [hrec, Except.ok.injEq, Prod.mk.injEq] at h
          rw [← h.1]
          exact List.Forall₂.cons
            (fun hn => absurd (hl ▸ hn) (by simp)) (ih i2 ls2 i3 hrec)

/-! ## Claim theorems -/

/-- C1: Round-trip of the Parameter Roller: for every parameter collection in
which each listed key maps to a (well-formed) 2-D numeric array, unflattening
the result of flattening that collection (with the same key order / recorded
position index) returns a collection equal to the original, exactly in both
shapes and values — for the dictionary-based roller
(`params_to_vector`/`vector_to_params`) and for the layer-based roller
(`roll_params`/`unroll_params`). -/
theorem C1_roundtrip {κ : Type} [DecidableEq κ]
    (params : κ → Option NDArr) (keys : List κ)
    (hkeys : ∀ k ∈ keys, ∃ a, params k = some a ∧ a.wfb = true ∧ a.is2Db = true)
    (layers : List Layer) (pt : PType)
    (hok : ∀ l ∈ layers, collOkB (l.get pt) = true) :
    (∃ θ pos, params_to_vector params keys = .ok (θ, pos) ∧
      vector_to_params θ (params, pos) = .ok params) ∧
    unroll_params (roll_params layers pt) layers pt = .ok layers := by
  constructor
  · obtain ⟨θ, pos, h1, h2⟩ := dict_roundtrip_ext params keys
      (fun k hk => (hkeys k hk).imp (fun a ha => ⟨ha.1, ha.2.1⟩)) []
    rw [List.append_nil] at h2
    exact ⟨θ, pos, h1, h2⟩
  · have h := unroll_roll pt layers layers [] rfl hok
    rw [List.append_nil, zipWith_set_get] at h
    exact h

/-- Witness for C1 at a concrete two-key dictionary and a concrete layer
list. -/
theorem C1_roundtrip_witness :
    (∃ θ pos, params_to_vector exampleParams ["W0", "b0"] = .ok (θ, pos) ∧
      vector_to_params θ (exampleParams, pos) = .ok exampleParams) ∧
    unroll_params (roll_params exampleLayers .params) exampleLayers .params =
      .ok exampleLayers :=
  C1_roundtrip exampleParams ["W0", "b0"]
    (by
      intro k hk
      rcases List.mem_cons.mp hk with h | h
      · subst h
        exact ⟨⟨[2, 1], [3, 4]⟩, rfl, rfl, rfl⟩
      · have h' := List.mem_singleton.mp h
        subst h'
        exact ⟨⟨[1, 1], [5]⟩, rfl, rfl, rfl⟩)
    exampleLayers .params (by decide)

/-- C4 counterexample: a discrepancy score exactly at the tolerance `2e-7` is
classified as passing by the source (`if diff > 2e-7`), while the claim says
a score at the tolerance is reported as failing. -/
theorem C4_counterexample :
    classifyDiff (2 / 10 ^ 7) = Verdict.passed ∧
    ¬ ((2 : ℝ) / 10 ^ 7 < 2 / 10 ^ 7) := by
  constructor
  · unfold classifyDiff
    rw [if_neg (lt_irrefl _)]
  · exact lt_irrefl _

/-- C4 (amended): a score at or below the fixed tolerance `2e-7` is reported
as passing, and a score strictly above it as failing. -/
theorem C4_amended (diff : ℝ) :
    classifyDiff diff = Verdict.passed ↔ diff ≤ 2 / 10 ^ 7 := by
  unfold classifyDiff
  rcases le_or_lt diff (2 / 10 ^ 7) with h | h
  · rw [if_neg (not_lt.mpr h)]
    simp [h]
  · rw [if_pos h]
    simp [not_le.mpr h]

/-- C6: the claim says the scorer returns the policy value 0 when both
vectors are exactly zero; the code instead computes `0 / 0`, which is not a
numeric value (NaN), modelled as `none` — in both scorer variants.  The
specification itself mandates the policy, so this is a defect of the code. -/
theorem C6_zero_vectors_nan :
    calculate_diff zeroVec zeroVec = none ∧
    calculate_diff_v1 zeroVec zeroVec = none := by
  have hz : euclidNorm zeroVec = 0 := by
    simp [euclidNorm, zeroVec]
  constructor
  · unfold calculate_diff
    rw [if_pos (by rw [hz]; ring)]
  · unfold calculate_diff_v1
    rw [if_pos (by rw [hz]; simp)]

/-- C5: the scorer computes `||A - B|| / (||A|| + ||B||)` under the Euclidean
norm (both source variants agree with the specification's formula whenever
the denominator is nonzero); hence `score(A, A) = 0` for every non-zero `A`,
and `score(A, B) = score(B, A)` for all `A`, `B`. -/
theorem C5_scorer {n : ℕ} (A B : Fin n → ℝ) :
    (¬ (A = 0 ∧ B = 0) →
      calculate_diff A B = some (score_spec A B) ∧
      calculate_diff_v1 A B = some (score_spec A B)) ∧
    (A ≠ 0 → calculate_diff A A = some 0) ∧
    calculate_diff A B = calculate_diff B A := by
  refine ⟨?_, ?_, ?_⟩
  · intro h
    have hden : 0 < euclidNorm A + euclidNorm B := by
      rcases Classical.em (A = 0) with hA | hA
      · have hB : B ≠ 0 := fun hB => h ⟨hA, hB⟩
        have := euclidNorm_pos hB
        have := euclidNorm_nonneg A
        linarith
      · have := euclidNorm_pos hA
        have := euclidNorm_nonneg B
        linarith
    constructor
    · unfold calculate_diff
      rw [if_neg (ne_of_gt hden)]
      rfl
    · unfold calculate_diff_v1
      rw [abs_of_nonneg (euclidNorm_nonneg A), abs_of_nonneg (euclidNorm_nonneg B),
        abs_of_nonneg (euclidNorm_nonneg (A - B))]
      rw [if_neg (ne_of_gt hden)]
      rfl
  · intro hA
    have hden : 0 < euclidNorm A + euclidNorm A := by
      have := euclidNorm_pos hA
      linarith
    unfold calculate_diff
    rw [if_neg (ne_of_gt hden)]
    have hnum : euclidNorm (A - A) = 0 := by
      rw [sub_self]
      exact euclidNorm_zero
    rw [hnum, zero_div]
  · unfold calculate_diff
    rw [euclidNorm_sub_comm, add_comm (euclidNorm A)]

/-- Witness for C5 at the concrete vectors `[1]` and `[0]`. -/
theorem C5_scorer_witness :
    (calculate_diff oneVec zeroVec = some (score_spec oneVec zeroVec) ∧
      calculate_diff_v1 oneVec zeroVec = some (score_spec oneVec zeroVec)) ∧
    calculate_diff oneVec oneVec = some 0 ∧
    calculate_diff oneVec zeroVec = calculate_diff zeroVec oneVec := by
  have hone : oneVec ≠ 0 := by
    intro h
    have := congrFun h 0
    simp [oneVec] at this
  exact ⟨(C5_scorer oneVec zeroVec).1 (fun h => hone h.1),
    (C5_scorer oneVec oneVec).2.1 hone,
    (C5_scorer oneVec zeroVec).2.2⟩

/-- C8 counterexample: flattening a dictionary whose listed key holds a
1-dimensional (not 2-D) array does not fail — `np.reshape(matrix, (-1, 1))`
accepts any dimensionality — contradicting the claim that a non-2-D array
raises a ShapeError. -/
theorem C8_counterexample :
    params_to_vector example1D ["W0"] = .ok ([1, 2, 3], [("W0", 0, 3)]) ∧
    NDArr.is2Db ⟨[3], [1, 2, 3]⟩ = false :=
  ⟨rfl, rfl⟩

/-- C8 (amended): flatten fails (with a `KeyError`) exactly when some listed
key is absent from the collection; the dimensionality of the stored arrays
is never checked. -/
theorem C8_amended {κ : Type} [DecidableEq κ] (params : κ → Option NDArr)
    (keys : List κ) :
    exceptOk (params_to_vector params keys) = true ↔ ∀ k ∈ keys, params k ≠ none :=
  params_to_vector_isOk params keys

/-- C9 counterexample: unflattening a vector of length 2 against positions
recording a single interval of length 1 (as produced by flattening a 1×1
matrix) succeeds — the extra element is silently ignored — contradicting the
claim that any length mismatch raises a LengthError. -/
theorem C9_counterexample :
    params_to_vector exampleScalar ["W0"] = .ok ([5], [("W0", 0, 1)]) ∧
    exceptOk (vector_to_params [7, 8] (exampleScalar, [("W0", 0, 1)])) = true ∧
    ([7, 8] : List ℚ).length ≠ ([5] : List ℚ).length :=
  ⟨rfl, rfl, by decide⟩

/-- C9 (amended): against the positions recorded by a flatten, unflatten
succeeds on any vector extending the flattened one (extra elements are
ignored, and the original collection is reconstructed), and fails — with a
`reshape` error, not a dedicated length check — exactly on vectors shorter
than the recorded total (stated here for pairwise-distinct keys). -/
theorem C9_amended {κ : Type} [DecidableEq κ] (params : κ → Option NDArr)
    (keys : List κ) (θ : List ℚ) (pos : List (κ × ℕ × ℕ))
    (hkeys : ∀ k ∈ keys, ∃ a, params k = some a ∧ a.wfb = true)
    (heq : params_to_vector params keys = .ok (θ, pos)) :
    (∀ ext, vector_to_params (θ ++ ext) (params, pos) = .ok params) ∧
    (keys.Nodup → ∀ v : List ℚ, v.length < θ.length →
      exceptOk (vector_to_params v (params, pos)) = false) := by
  constructor
  · intro ext
    obtain ⟨θ', pos', h1, h2⟩ := dict_roundtrip_ext params keys hkeys ext
    rw [heq] at h1
    simp only [Except.ok.injEq, Prod.mk.injEq] at h1
    obtain ⟨h1a, h1b⟩ := h1
    rw [h1a, h1b]
    exact h2
  · intro hnd v hv
    exact vector_to_params_short_fails params keys hnd hkeys θ pos heq v hv

/-- Witness for C9 (amended) at a concrete one-key dictionary: a longer
vector is accepted and round-trips, a shorter one is rejected. -/
theorem C9_amended_witness :
    vector_to_params (([5] : List ℚ) ++ [9]) (exampleScalar, [("W0", 0, 1)]) =
      .ok exampleScalar ∧
    exceptOk (vector_to_params ([] : List ℚ) (exampleScalar, [("W0", 0, 1)]))
      = false := by
  have hkeys : ∀ k ∈ ["W0"], ∃ a, exampleScalar k = some a ∧ a.wfb = true := by
    intro k hk
    have h := List.mem_singleton.mp hk
    subst h
    exact ⟨⟨[1, 1], [5]⟩, rfl, rfl⟩
  have h := C9_amended exampleScalar ["W0"] [5] [("W0", 0, 1)] hkeys rfl
  exact ⟨h.1 [9], h.2 (by decide) [] (by decide)⟩

/-- C10: a layer whose requested collection attribute is None contributes no
coordinates to the flattened vector — its length is the sum of
`shape[0] * shape[1]` over the arrays of layers with non-None collections
only — and any successful `unroll_params` leaves such a layer entirely
unchanged. -/
theorem C10_none_layers (layers : List Layer) (pt : PType)
    (hok : ∀ l ∈ layers, collOkB (l.get pt) = true) :
    (roll_params layers pt).length = ptSize layers pt ∧
    ∀ (θ : List ℚ) (layers' : List Layer),
      unroll_params θ layers pt = .ok layers' →
      List.Forall₂ (fun l l' => l.get pt = none → l' = l) layers layers' := by
  constructor
  · exact roll_params_length layers pt hok
  · intro θ layers' h
    unfold unroll_params at h
    cases hx : unrollLayers θ pt layers 0 with
    | error e => rw [hx] at h; exact absurd h (by simp)
    | ok pi =>
      obtain ⟨ls2, i2⟩ := pi
      rw [hx] at h
      simp only [Except.ok.injEq] at h
      rw [← h]
      exact unrollLayers_none_unchanged θ pt layers 0 ls2 i2 hx

/-- Witness for C10 at a concrete layer list containing a None-collection
layer. -/
theorem C10_none_layers_witness :
    (roll_params exampleLayers .params).length = ptSize exampleLayers .params ∧
    ∀ (θ : List ℚ) (layers' : List Layer),
      unroll_params θ exampleLayers .params = .ok layers' →
      List.Forall₂ (fun l l' => l.get .params = none → l' = l)
        exampleLayers layers' :=
  C10_none_layers exampleLayers .params (by decide)

/-- C2: Central-difference loop: in both estimators, every coordinate `i` of
the approximated gradient equals `(cost_plus - cost_minus) / (2 * eps)`,
where the two costs are the model evaluated on a fresh copy of the
*original* flattened parameter vector perturbed only at coordinate `i` (by
`+eps`, resp. `-eps`) and installed into the fixed post-backward state —
perturbations of successive coordinates never accumulate. -/
theorem C2_central_difference {Output : Type} {κ : Type} [DecidableEq κ]
    (fwdTrain : List Layer → Output × List Layer)
    (bwd : Output → List Layer → List Layer)
    (fwdPredict : List Layer → Output × List Layer)
    (computeCost : Output → ℚ) (ls0 : List Layer) (eps : ℚ)
    (hbad : ls0.any (fun l => l.kind == LayerKind.dropout
      || l.kind == LayerKind.batchnorm) = false)
    (hok0 : layersOk ls0 = true)
    (hok2 : layersOk (postBackward fwdTrain bwd ls0) = true)
    (hskel : layersSkel (postBackward fwdTrain bwd ls0) = layersSkel ls0)
    (hPred : ∀ ls, (fwdPredict ls).2 = ls)
    (reg : DictReg) (hreg : reg ≠ DictReg.dropoutReg)
    (params grads : κ → Option NDArr) (paramKeys gradKeys : List κ)
    (J : (κ → Option NDArr) → ℚ) (epsd : ℚ)
    (hkp : ∀ k ∈ paramKeys, ∃ a, params k = some a ∧ a.wfb = true)
    (hkg : ∀ k ∈ gradKeys, ∃ a, grads k = some a ∧ a.wfb = true) :
    (∃ ga, compute_error_core fwdTrain bwd fwdPredict computeCost none ls0 eps =
        .ok (roll_params (postBackward fwdTrain bwd ls0) .grads, ga, ls0) ∧
      ga.length = (roll_params (postBackward fwdTrain bwd ls0) .params).length ∧
      ∀ i, i < (roll_params (postBackward fwdTrain bwd ls0) .params).length →
        exceptOk (unroll_params
          ((roll_params (postBackward fwdTrain bwd ls0) .params).set i
            ((roll_params (postBackward fwdTrain bwd ls0) .params).getD i 0 + eps))
          (postBackward fwdTrain bwd ls0) .params) = true ∧
        exceptOk (unroll_params
          ((roll_params (postBackward fwdTrain bwd ls0) .params).set i
            ((roll_params (postBackward fwdTrain bwd ls0) .params).getD i 0 - eps))
          (postBackward fwdTrain bwd ls0) .params) = true ∧
        ga.getD i 0 =
          (refCostD fwdPredict computeCost (postBackward fwdTrain bwd ls0)
            ((roll_params (postBackward fwdTrain bwd ls0) .params).set i
              ((roll_params (postBackward fwdTrain bwd ls0) .params).getD i 0 + eps)) -
           refCostD fwdPredict computeCost (postBackward fwdTrain bwd ls0)
            ((roll_params (postBackward fwdTrain bwd ls0) .params).set i
              ((roll_params (postBackward fwdTrain bwd ls0) .params).getD i 0 - eps)))
          / (2 * eps)) ∧
    (∃ θ pos gradTheta gpos ga,
      params_to_vector params paramKeys = .ok (θ, pos) ∧
      params_to_vector grads gradKeys = .ok (gradTheta, gpos) ∧
      run_core reg params grads paramKeys gradKeys J epsd = .ok (gradTheta, ga) ∧
      ga.length = θ.length ∧
      ∀ i, i < θ.length →
        exceptOk (vector_to_params (θ.set i (θ.getD i 0 + epsd)) (params, pos))
          = true ∧
        exceptOk (vector_to_params (θ.set i (θ.getD i 0 - epsd)) (params, pos))
          = true ∧
        ga.getD i 0 =
          (refCostDictD J (params, pos) (θ.set i (θ.getD i 0 + epsd)) -
           refCostDictD J (params, pos) (θ.set i (θ.getD i 0 - epsd)))
            / (2 * epsd)) :=
  ⟨compute_error_core_full fwdTrain bwd fwdPredict computeCost ls0 eps
      hbad hok0 hok2 hskel hPred,
   run_core_full reg hreg params grads paramKeys gradKeys J epsd hkp hkg⟩

/-- Witness for C2: a trivial conforming model over a concrete layer list
and concrete dictionaries. -/
theorem C2_central_difference_witness :
    (∃ ga, compute_error_core idFwd idBwd idFwd zeroCost none exampleLayers
          (1 / 100) =
        .ok (roll_params (postBackward idFwd idBwd exampleLayers) .grads, ga,
          exampleLayers) ∧
      ga.length =
        (roll_params (postBackward idFwd idBwd exampleLayers) .params).length ∧
      ∀ i, i < (roll_params (postBackward idFwd idBwd exampleLayers) .params).length →
        exceptOk (unroll_params
          ((roll_params (postBackward idFwd idBwd exampleLayers) .params).set i
            ((roll_params (postBackward idFwd idBwd exampleLayers) .params).getD i 0
              + 1 / 100))
          (postBackward idFwd idBwd exampleLayers) .params) = true ∧
        exceptOk (unroll_params
          ((roll_params (postBackward idFwd idBwd exampleLayers) .params).set i
            ((roll_params (postBackward idFwd idBwd exampleLayers) .params).getD i 0
              - 1 / 100))
          (postBackward idFwd idBwd exampleLayers) .params) = true ∧
        ga.getD i 0 =
          (refCostD idFwd zeroCost (postBackward idFwd idBwd exampleLayers)
            ((roll_params (postBackward idFwd idBwd exampleLayers) .params).set i
              ((roll_params (postBackward idFwd idBwd exampleLayers) .params).getD i 0
                + 1 / 100)) -
           refCostD idFwd zeroCost (postBackward idFwd idBwd exampleLayers)
            ((roll_params (postBackward idFwd idBwd exampleLayers) .params).set i
              ((roll_params (postBackward idFwd idBwd exampleLayers) .params).getD i 0
                - 1 / 100)))
          / (2 * (1 / 100))) ∧
    (∃ θ pos gradTheta gpos ga,
      params_to_vector exampleParams ["W0", "b0"] = .ok (θ, pos) ∧
      params_to_vector exampleGrads ["dW0", "db0"] = .ok (gradTheta, gpos) ∧
      run_core DictReg.noneReg exampleParams exampleGrads ["W0", "b0"]
        ["dW0", "db0"] zeroJ (1 / 100) = .ok (gradTheta, ga) ∧
      ga.length = θ.length ∧
      ∀ i, i < θ.length →
        exceptOk (vector_to_params (θ.set i (θ.getD i 0 + 1 / 100))
          (exampleParams, pos)) = true ∧
        exceptOk (vector_to_params (θ.set i (θ.getD i 0 - 1 / 100))
          (exampleParams, pos)) = true ∧
        ga.getD i 0 =
          (refCostDictD zeroJ (exampleParams, pos) (θ.set i (θ.getD i 0 + 1 / 100)) -
           refCostDictD zeroJ (exampleParams, pos) (θ.set i (θ.getD i 0 - 1 / 100)))
            / (2 * (1 / 100))) :=
  C2_central_difference idFwd idBwd idFwd zeroCost exampleLayers (1 / 100)
    (by decide) (by decide) (by decide) rfl (fun ls => rfl)
    DictReg.noneReg (by decide) exampleParams exampleGrads
    ["W0", "b0"] ["dW0", "db0"] zeroJ (1 / 100)
    (by
      intro k hk
      rcases List.mem_cons.mp hk with h | h
      · subst h
        exact ⟨⟨[2, 1], [3, 4]⟩, rfl, rfl⟩
      · have h' := List.mem_singleton.mp h
        subst h'
        exact ⟨⟨[1, 1], [5]⟩, rfl, rfl⟩)
    (by
      intro k hk
      rcases List.mem_cons.mp hk with h | h
      · subst h
        exact ⟨⟨[2, 1], [1, 2]⟩, rfl, rfl⟩
      · have h' := List.mem_singleton.mp h
        subst h'
        exact ⟨⟨[1, 1], [7]⟩, rfl, rfl⟩)

/-- C3: Restoration: after a complete gradient-check run on a model
satisfying the collaborator contract, `compute_error` succeeds and
re-installs the entry snapshot: the final layer list — parameter collections,
gradient collections and kinds — equals the layer list at call entry. -/
theorem C3_restoration {Output : Type}
    (fwdTrain : List Layer → Output × List Layer)
    (bwd : Output → List Layer → List Layer)
    (fwdPredict : List Layer → Output × List Layer)
    (computeCost : Output → ℚ) (ls0 : List Layer) (eps : ℚ)
    (hbad : ls0.any (fun l => l.kind == LayerKind.dropout
      || l.kind == LayerKind.batchnorm) = false)
    (hok0 : layersOk ls0 = true)
    (hok2 : layersOk (postBackward fwdTrain bwd ls0) = true)
    (hskel : layersSkel (postBackward fwdTrain bwd ls0) = layersSkel ls0)
    (hPred : ∀ ls, (fwdPredict ls).2 = ls) :
    ∃ gradTheta gradApprox,
      compute_error_core fwdTrain bwd fwdPredict computeCost none ls0 eps =
        .ok (gradTheta, gradApprox, ls0) := by
  obtain ⟨ga, heq, -, -⟩ := compute_error_core_full fwdTrain bwd fwdPredict
    computeCost ls0 eps hbad hok0 hok2 hskel hPred
  exact ⟨_, ga, heq⟩

/-- Witness for C3: the trivial conforming model on a concrete layer list. -/
theorem C3_restoration_witness :
    ∃ gradTheta gradApprox,
      compute_error_core idFwd idBwd idFwd zeroCost none exampleLayers (1 / 100) =
        .ok (gradTheta, gradApprox, exampleLayers) :=
  C3_restoration idFwd idBwd idFwd zeroCost exampleLayers (1 / 100)
    (by decide) (by decide) (by decide) rfl (fun ls => rfl)

/-- C7: Precondition enforcement: a model containing a dropout or batch-norm
layer (or a non-None regularizer in the layer-based checker, or a dropout
regularizer in the dictionary-based checker) makes the check fail with the
assertion error — for *every* choice of the collaborator functions, i.e.
before any forward or backward call is made and before any mutation of the
model's state occurs. -/
theorem C7_precondition {Output : Type} {κ : Type} [DecidableEq κ]
    (fwdTrain : List Layer → Output × List Layer)
    (bwd : Output → List Layer → List Layer)
    (fwdPredict : List Layer → Output × List Layer)
    (computeCost : Output → ℚ) (regularizer : Option Unit)
    (layers : List Layer) (eps : ℚ)
    (hbad : regularizer.isSome = true ∨
      ∃ l ∈ layers, l.kind = LayerKind.dropout ∨ l.kind = LayerKind.batchnorm)
    (reg : DictReg) (hdrop : reg = DictReg.dropoutReg)
    (params grads : κ → Option NDArr) (paramKeys gradKeys : List κ)
    (J : (κ → Option NDArr) → ℚ) (epsd : ℚ) :
    compute_error_core fwdTrain bwd fwdPredict computeCost regularizer layers eps =
      .error CheckErr.assertionError ∧
    run_core reg params grads paramKeys gradKeys J epsd =
      .error RunErr.assertionError := by
  constructor
  · by_cases hr : regularizer.isSome = true
    · simp [compute_error_core, hr]
    · rcases hbad with h | ⟨l, hl, hk⟩
      · exact absurd h hr
      · have hany : layers.any (fun l => l.kind == LayerKind.dropout
            || l.kind == LayerKind.batchnorm) = true := by
          rw [List.any_eq_true]
          refine ⟨l, hl, ?_⟩
          rcases hk with h | h <;> simp [h]
        simp [compute_error_core, hr, hany]
  · subst hdrop
    simp [run_core]

/-- Witness for C7: a model whose layer list contains a dropout layer, and a
dictionary model whose regularizer is dropout. -/
theorem C7_precondition_witness :
    compute_error_core idFwd idBwd idFwd zeroCost none [dropoutLayer] (1 / 100) =
      .error CheckErr.assertionError ∧
    run_core DictReg.dropoutReg exampleParams exampleGrads ["W0", "b0"]
      ["dW0", "db0"] zeroJ (1 / 100) = .error RunErr.assertionError :=
  C7_precondition idFwd idBwd idFwd zeroCost none [dropoutLayer] (1 / 100)
    (Or.inr ⟨dropoutLayer, List.mem_singleton.mpr rfl, Or.inl rfl⟩)
    DictReg.dropoutReg rfl exampleParams exampleGrads ["W0", "b0"]
    ["dW0", "db0"] zeroJ (1 / 100)
